import Mathlib

/-!
# Verification of the Louvain clustering core (`sknetwork/clustering/louvain.py`)

This file gives a shallow embedding, over exact rational arithmetic, of the
greedy modularity optimizer (`fit_core` / `GreedyModularity.fit`), the
aggregate-graph operations (`AggregateGraph.__init__` / `aggregate` /
`membership_matrix`), and the multilevel driver loop (`Louvain.fit`), and
proves the spec-level properties about them.

Conventions:
* machine floats become `ℚ` (exact arithmetic);
* numpy arrays indexed by nodes/clusters become functions `Fin n → ℚ` or
  `Fin n → Fin n`, updated with `Function.update`;
* the CSR neighbor structure of a sparse matrix becomes, for each row, the
  list of columns holding a nonzero entry;
* `while` loops become fuel-indexed recursions; a `converged` flag records
  whether the loop exited through its own condition (fuel exhaustion at every
  fuel models divergence of the source loop);
* fallible operations (scipy dimension errors) return `Except String`.
-/

namespace Louvain

/-! ## Generic fold helpers shared by both engines

`fit_core` tracks the best candidate by a strict-improvement scan
(`if local_delta > best_delta`); the python engine materializes the delta
array and takes `argmax` (first index of the maximum).  Both are folds that
keep the first element attaining the running maximum; `scanBest` is the
common shape, `listMax` its value. -/

def listMax (l : List ℚ) (b : ℚ) : ℚ :=
  l.foldl max b

/-- The strict-improvement scan of `fit_core` lines 212-223: start from a
best value and payload, replace them whenever a strictly larger value
appears. -/
def scanBest {α : Type} (f : α → ℚ) (l : List α) (init : ℚ × α) : ℚ × α :=
  l.foldl (fun b x => if b.1 < f x then (f x, x) else b) init

/-! ## The graph seen by the optimizer

`GreedyModularity.fit` receives an `AggregateGraph` and reads
`norm_adjacency`, `out_probs` and `in_probs`; when `in_probs` is `None`
it falls back to `out_probs` (lines 276-280).  `OptGraph` holds the three
resolved arrays. -/

structure OptGraph (n : ℕ) where
  adj : Fin n → Fin n → ℚ
  outP : Fin n → ℚ
  inP : Fin n → ℚ

/-- Line 282: `adjacency = 0.5 * directed2undirected(graph.norm_adjacency)`.
Modelled from the spec: `directed2undirected` is the sum of forward and
transposed weights, so the proxy adjacency is `½·(A + Aᵀ)`. -/
def symAdj {n : ℕ} (g : OptGraph n) (i j : Fin n) : ℚ :=
  (g.adj i j + g.adj j i) / 2

/-- Line 284: `self_loops = adjacency.diagonal()`. -/
def selfLoops {n : ℕ} (g : OptGraph n) (i : Fin n) : ℚ :=
  symAdj g i i

/-- The CSR row of node `i` in the proxy adjacency: the columns holding a
nonzero entry (lines 286-288, 195). -/
def neighborsList {n : ℕ} (g : OptGraph n) (i : Fin n) : List (Fin n) :=
  (List.finRange n).filter (fun j => decide (symAdj g i j ≠ 0))

/-- Lines 198-200: `neighbor_clusters_weights` accumulated bucket by bucket
over the neighbor list. -/
def bucketWeights {n : ℕ} (g : OptGraph n) (lab : Fin n → Fin n) (i : Fin n) :
    Fin n → ℚ :=
  (neighborsList g i).foldl
    (fun acc j => Function.update acc (lab j) (acc (lab j) + symAdj g i j))
    (fun _ => 0)

/-- Lines 202-203: the distinct neighbor clusters with the node's own
cluster discarded.  Python set enumeration order is not observable; it is
modelled by `List.dedup` over the neighbor scan order. -/
def uniqueClusters {n : ℕ} (g : OptGraph n) (lab : Fin n → Fin n) (i : Fin n) :
    List (Fin n) :=
  (((neighborsList g i).map lab).dedup).filter (fun c => decide (c ≠ lab i))

/-- Lines 208-210: the exit score of node `i` from its current cluster. -/
def exitDelta {n : ℕ} (g : OptGraph n) (res : ℚ) (lab : Fin n → Fin n)
    (outCW inCW : Fin n → ℚ) (i : Fin n) : ℚ :=
  2 * (bucketWeights g lab i (lab i) - selfLoops g i)
    - res * g.outP i * (inCW (lab i) - g.inP i)
    - res * g.inP i * (outCW (lab i) - g.outP i)

/-- Lines 216-218: the candidate score of moving node `i` into cluster `c`. -/
def candDelta {n : ℕ} (g : OptGraph n) (res : ℚ) (lab : Fin n → Fin n)
    (outCW inCW : Fin n → ℚ) (i : Fin n) (c : Fin n) : ℚ :=
  2 * bucketWeights g lab i c
    - res * g.outP i * inCW c
    - res * g.inP i * outCW c

/-- The mutable state of one optimizer invocation: the labels array and the
two cluster-mass accumulators. -/
structure SweepState (n : ℕ) where
  labels : Fin n → Fin n
  outCW : Fin n → ℚ
  inCW : Fin n → ℚ

/-- Lines 227-230: subtract a node's mass from its old cluster, add it to
the new one.  The two array writes of the source happen in this order. -/
def moveMass {n : ℕ} (w : Fin n → ℚ) (a b : Fin n) (m : ℚ) : Fin n → ℚ :=
  let w1 := Function.update w a (w a - m)
  Function.update w1 b (w1 b + m)

/-- Lines 193-231 of `fit_core`: processing of one node inside a sweep.
The pair carries the running `pass_increase`. -/
def processNode {n : ℕ} (g : OptGraph n) (res : ℚ)
    (si : SweepState n × ℚ) (i : Fin n) : SweepState n × ℚ :=
  let s := si.1
  let uc := uniqueClusters g s.labels i
  if uc.isEmpty then si
  else
    let exitD := exitDelta g res s.labels s.outCW s.inCW i
    let best := scanBest
      (fun c => candDelta g res s.labels s.outCW s.inCW i c - exitD)
      uc (0, s.labels i)
    if 0 < best.1 then
      (⟨Function.update s.labels i best.2,
        moveMass s.outCW (s.labels i) best.2 (g.outP i),
        moveMass s.inCW (s.labels i) best.2 (g.inP i)⟩,
       si.2 + best.1)
    else si

/-- One optimization pass over all nodes in ascending index order
(lines 191-231), returning the new state and the pass increase. -/
def sweep {n : ℕ} (g : OptGraph n) (res : ℚ) (s : SweepState n) :
    SweepState n × ℚ :=
  (List.finRange n).foldl (processNode g res) (s, 0)

/-- What `fit_core` returns, with the sweep-gain trace and a flag recording
whether the `while` loop exited through its own condition. -/
structure FitResult (n : ℕ) where
  labels : Fin n → Fin n
  total : ℚ
  gains : List ℚ
  converged : Bool

/-- The `while increase` loop of `fit_core` (lines 189-236), indexed by
fuel.  Exhausting the fuel at every fuel value models divergence of the
source loop. -/
def fitLoop {n : ℕ} (g : OptGraph n) (res tol : ℚ) :
    ℕ → SweepState n → FitResult n
  | 0, s => ⟨s.labels, 0, [], false⟩
  | fuel + 1, s =>
    let sg := sweep g res s
    if tol < sg.2 then
      let r := fitLoop g res tol fuel sg.1
      ⟨r.labels, sg.2 + r.total, sg.2 :: r.gains, r.converged⟩
    else
      ⟨sg.1.labels, sg.2, [sg.2], true⟩

/-- Lines 184-186: identity labels, cluster masses initialized to the node
masses. -/
def initState {n : ℕ} (g : OptGraph n) : SweepState n :=
  ⟨fun i => i, g.outP, g.inP⟩

/-- Fuel sufficient for any run of the sweep loop when `tol ≥ 0`
(proved below): one more than the number of labelings. -/
def fitFuel (n : ℕ) : ℕ :=
  n ^ n + 1

/-- `fit_core` (lines 181-236): sweep until a pass gains at most `tol`. -/
def fitCore {n : ℕ} (g : OptGraph n) (res tol : ℚ) : FitResult n :=
  fitLoop g res tol (fitFuel n) (initState g)

/-! ## The interpreted ('python') engine, lines 290-346

Identical algorithm, written with masked sums over the neighbor weights
(`weights[labels[neighbors] == cluster].sum()`), a materialized
`local_delta` array and `argmax` (first index of the maximum). -/

/-- Line 314 / 321: the masked sum of weights toward neighbors in a given
cluster. -/
def maskedSum {n : ℕ} (g : OptGraph n) (lab : Fin n → Fin n) (i : Fin n)
    (c : Fin n) : ℚ :=
  (((neighborsList g i).filter (fun j => decide (lab j = c))).map
    (fun j => symAdj g i j)).sum

/-- Lines 314-316: the python engine's exit score. -/
def pyExitDelta {n : ℕ} (g : OptGraph n) (res : ℚ) (lab : Fin n → Fin n)
    (outCW inCW : Fin n → ℚ) (i : Fin n) : ℚ :=
  2 * (maskedSum g lab i (lab i) - selfLoops g i)
    - res * g.outP i * (inCW (lab i) - g.inP i)
    - res * g.inP i * (outCW (lab i) - g.outP i)

/-- Lines 321-323: the python engine's candidate score. -/
def pyCandDelta {n : ℕ} (g : OptGraph n) (res : ℚ) (lab : Fin n → Fin n)
    (outCW inCW : Fin n → ℚ) (i : Fin n) (c : Fin n) : ℚ :=
  2 * maskedSum g lab i c
    - res * g.outP i * inCW c
    - res * g.inP i * outCW c

/-- Lines 302-337: processing of one node in the python engine.  The
`local_delta` array, its `argmax` (first index of the maximum) and the two
index lookups are modelled by scanning cluster/score pairs for the first
pair attaining the maximum. -/
def pyProcessNode {n : ℕ} (g : OptGraph n) (res : ℚ)
    (si : SweepState n × ℚ) (i : Fin n) : SweepState n × ℚ :=
  let s := si.1
  let uc := uniqueClusters g s.labels i
  if 0 < uc.length then
    let exitD := pyExitDelta g res s.labels s.outCW s.inCW i
    let localDelta := uc.map
      (fun c => pyCandDelta g res s.labels s.outCW s.inCW i c - exitD)
    let pairs := uc.zip localDelta
    let hd := pairs.headD (s.labels i, 0)
    let best := scanBest (fun p => p.2) pairs (hd.2, hd)
    if 0 < best.2.2 then
      (⟨Function.update s.labels i best.2.1,
        moveMass s.outCW (s.labels i) best.2.1 (g.outP i),
        moveMass s.inCW (s.labels i) best.2.1 (g.inP i)⟩,
       si.2 + best.2.2)
    else si
  else si

/-- Lines 300-337: one python-engine pass over all nodes. -/
def pySweep {n : ℕ} (g : OptGraph n) (res : ℚ) (s : SweepState n) :
    SweepState n × ℚ :=
  (List.finRange n).foldl (pyProcessNode g res) (s, 0)

/-- Lines 298-341: the python engine's `while increase` loop. -/
def pyFitLoop {n : ℕ} (g : OptGraph n) (res tol : ℚ) :
    ℕ → SweepState n → FitResult n
  | 0, s => ⟨s.labels, 0, [], false⟩
  | fuel + 1, s =>
    let sg := pySweep g res s
    if tol < sg.2 then
      let r := pyFitLoop g res tol fuel sg.1
      ⟨r.labels, sg.2 + r.total, sg.2 :: r.gains, r.converged⟩
    else
      ⟨sg.1.labels, sg.2, [sg.2], true⟩

/-- The python engine of `GreedyModularity.fit` (lines 290-346). -/
def pyFitCore {n : ℕ} (g : OptGraph n) (res tol : ℚ) : FitResult n :=
  pyFitLoop g res tol (fitFuel n) (initState g)

/-! ## Edge mass: the three ways the code computes it agree

The spec's `edge_mass(i, c)` is the total proxy-adjacency weight from `i`
to the nodes of cluster `c`.  `fit_core` accumulates it bucket by bucket
(`bucketWeights`), the python engine with a masked sum (`maskedSum`); both
equal the full sum over all nodes of cluster `c` because absent CSR entries
are zero. -/

/-- The spec's `edge_mass(i, c)`: total proxy weight from node `i` into
cluster `c`. -/
def edgeMass {n : ℕ} (g : OptGraph n) (lab : Fin n → Fin n) (i c : Fin n) :
    ℚ :=
  ∑ j : Fin n, if lab j = c then symAdj g i j else 0

/-! ## Spec-level scores and the one-node move characterization -/

/-- The spec's `exit_score`, written with `edgeMass`. -/
def exitScore {n : ℕ} (g : OptGraph n) (res : ℚ) (s : SweepState n)
    (i : Fin n) : ℚ :=
  2 * (edgeMass g s.labels i (s.labels i) - selfLoops g i)
    - res * g.outP i * (s.inCW (s.labels i) - g.inP i)
    - res * g.inP i * (s.outCW (s.labels i) - g.outP i)

/-- The spec's `candidate_score(B)`, written with `edgeMass`. -/
def candScore {n : ℕ} (g : OptGraph n) (res : ℚ) (s : SweepState n)
    (i c : Fin n) : ℚ :=
  2 * edgeMass g s.labels i c
    - res * g.outP i * s.inCW c
    - res * g.inP i * s.outCW c

/-- The spec's `gain(B) = candidate_score(B) − exit_score`. -/
def clusterGain {n : ℕ} (g : OptGraph n) (res : ℚ) (s : SweepState n)
    (i c : Fin n) : ℚ :=
  candScore g res s i c - exitScore g res s i

/-- The state after moving node `i` to cluster `B` (lines 227-231). -/
def movedState {n : ℕ} (g : OptGraph n) (s : SweepState n) (i B : Fin n) :
    SweepState n :=
  ⟨Function.update s.labels i B,
   moveMass s.outCW (s.labels i) B (g.outP i),
   moveMass s.inCW (s.labels i) B (g.inP i)⟩

/-! ## The two engines perform the same node step -/

/-- Common extensional form of one node step: if the best gain over the
candidate clusters is positive, move to the first cluster attaining it. -/
def refStep {n : ℕ} (g : OptGraph n) (res : ℚ)
    (si : SweepState n × ℚ) (i : Fin n) : SweepState n × ℚ :=
  let s := si.1
  let uc := uniqueClusters g s.labels i
  let M := listMax (uc.map (clusterGain g res s i)) 0
  if 0 < M then
    match uc.find? (fun w => decide (clusterGain g res s i w = M)) with
    | some z => (movedState g s i z, si.2 + M)
    | none => si
  else si

/-! ## The modularity potential

`fit_core` maintains `out_clusters_weights`/`in_clusters_weights`
incrementally; they always equal the per-cluster sums of node masses, and
each accepted move increases the (symmetrized, resolution-scaled)
modularity of the labeling by exactly the accepted gain.  This yields
termination of the sweep loop for `tol ≥ 0`. -/

/-- True per-cluster out-mass of a labeling. -/
def clusterOut {n : ℕ} (g : OptGraph n) (lab : Fin n → Fin n) (c : Fin n) :
    ℚ :=
  ∑ j : Fin n, if lab j = c then g.outP j else 0

/-- True per-cluster in-mass of a labeling. -/
def clusterIn {n : ℕ} (g : OptGraph n) (lab : Fin n → Fin n) (c : Fin n) :
    ℚ :=
  ∑ j : Fin n, if lab j = c then g.inP j else 0

/-- The modularity-style objective of a labeling over the proxy adjacency
(up to a constant factor): within-cluster edge mass minus the
resolution-scaled null model. -/
def potential {n : ℕ} (g : OptGraph n) (res : ℚ) (lab : Fin n → Fin n) : ℚ :=
  (∑ i : Fin n, ∑ j : Fin n, if lab i = lab j then symAdj g i j else 0)
    - res * ∑ c : Fin n, clusterOut g lab c * clusterIn g lab c

/-- The cluster-weight accumulators agree with the labeling. -/
def cwInv {n : ℕ} (g : OptGraph n) (s : SweepState n) : Prop :=
  (∀ c, s.outCW c = clusterOut g s.labels c) ∧
  (∀ c, s.inCW c = clusterIn g s.labels c)

/-- The number of labelings strictly better than the current one: the
termination measure of the sweep loop. -/
def labelingsAbove {n : ℕ} (g : OptGraph n) (res : ℚ)
    (lab : Fin n → Fin n) : ℕ :=
  (Finset.univ.filter (fun l : Fin n → Fin n =>
    potential g res lab < potential g res l)).card

/-- `np.unique(labels)`: the occurring labels in ascending order. -/
def uniqueSorted {n : ℕ} (lab : Fin n → Fin n) : List (Fin n) :=
  (List.finRange n).filter (fun c => decide (∃ i, lab i = c))

/-- `np.unique(labels, return_inverse=True)` (lines 344, 353): each node's
label becomes the index of its value in the sorted list of occurring
values. -/
def denseRenumber {n : ℕ} (lab : Fin n → Fin n) (i : Fin n) : ℕ :=
  (uniqueSorted lab).indexOf (lab i)

/-- Deduplication keeping the first occurrence of each value. -/
def firstDedup {α : Type} [DecidableEq α] : List α → List α
  | [] => []
  | x :: l => x :: (firstDedup l).filter (fun y => decide (y ≠ x))

/-- Modelled from the spec: renumbering "densely (contiguous integers
starting at 0) in first-occurrence order: the cluster of the lowest-indexed
node receives id 0, the next distinct cluster encountered when scanning
nodes in ascending index order receives id 1, and so on". -/
def firstOccurrenceRenumber {n : ℕ} (lab : Fin n → Fin n) (i : Fin n) : ℕ :=
  (firstDedup ((List.finRange n).map lab)).indexOf (lab i)

/-! ## Concrete graphs used as witnesses -/

/-- Two nodes joined by one undirected unit edge (normalized adjacency). -/
def pairGraph : OptGraph 2 :=
  ⟨fun i j => if i = j then 0 else 1/2,
   fun _ => 1/2, fun _ => 1/2⟩

/-- Four nodes with undirected edges 0–3 and 1–2 (normalized adjacency):
the sweep sends node 0 to cluster 3 and node 1 to cluster 2, so the sweep
labels are `[3, 2, 2, 3]`. -/
def crossGraph : OptGraph 4 :=
  ⟨fun i j =>
    if (i = 0 ∧ j = 3) ∨ (i = 3 ∧ j = 0) ∨ (i = 1 ∧ j = 2) ∨ (i = 2 ∧ j = 1)
    then 1/4 else 0,
   fun _ => 1/4, fun _ => 1/4⟩

/-- One node with a self loop of full mass. -/
def loopGraph : OptGraph 1 :=
  ⟨fun _ _ => 1, fun _ => 1, fun _ => 1⟩

/-- The sweep loop never exits through its own condition, at any fuel:
the fuel-indexed semantics of a diverging `while` loop. -/
def fitLoopDiverges {n : ℕ} (g : OptGraph n) (res tol : ℚ) : Prop :=
  ∀ fuel, (fitLoop g res tol fuel (initState g)).converged = false

/-! ## AggregateGraph over dimension-carrying sparse matrices

For the construction, aggregation and error-behavior claims the matrices
must carry their shapes (scipy raises on inner-dimension mismatch), so
this part of the embedding uses an explicit rows/cols/entries record. -/

structure SpMat where
  rows : ℕ
  cols : ℕ
  ent : ℕ → ℕ → ℚ

def SpMat.total (A : SpMat) : ℚ :=
  ∑ i ∈ Finset.range A.rows, ∑ j ∈ Finset.range A.cols, A.ent i j

def SpMat.transpose (A : SpMat) : SpMat :=
  ⟨A.cols, A.rows, fun i j => A.ent j i⟩

def SpMat.scale (q : ℚ) (A : SpMat) : SpMat :=
  ⟨A.rows, A.cols, fun i j => q * A.ent i j⟩

/-- scipy's sparse product: raises a generic dimension-mismatch error when
the inner dimensions disagree, before any result is produced. -/
def SpMat.dot (A B : SpMat) : Except String SpMat :=
  if A.cols = B.rows then
    .ok ⟨A.rows, B.cols,
      fun i j => ∑ k ∈ Finset.range A.cols, A.ent i k * B.ent k j⟩
  else .error "dimension mismatch"

/-- Total mass of a column vector. -/
def vecTotal (v : SpMat) : ℚ :=
  ∑ i ∈ Finset.range v.rows, v.ent i 0

/-- `membership_matrix` (lines 23-39): a `csr_matrix` of shape
`(n, max(labels)+1)` holding a single 1 in each row, at the node's
label. -/
def membership_matrix (labels : List ℕ) : SpMat :=
  ⟨labels.length, (labels.foldr max 0) + 1,
   fun i j => if i < labels.length ∧ labels.getD i 0 = j then 1 else 0⟩

/-- `aggregate` accepts either a label vector (converted through
`membership_matrix`, lines 93-98) or a membership matrix used as is. -/
inductive MembershipArg
  | vec (labels : List ℕ)
  | mat (m : SpMat)

def MembershipArg.toMat : MembershipArg → SpMat
  | .vec labels => membership_matrix labels
  | .mat m => m

/-- Modelled from the spec: `check_probs` (imported from
`sknetwork.utils.checks`, not part of this repository's sources) derives a
probability vector from the weighting policy — `degree` (proportional to
row sums), `uniform` (equal mass), or an explicit vector normalized to sum
to 1. -/
inductive WeightSpec
  | degree
  | uniform
  | custom (v : ℕ → ℚ)

def check_probs (w : WeightSpec) (adjacency : SpMat) : SpMat :=
  match w with
  | .degree => ⟨adjacency.rows, 1, fun i _ =>
      (∑ j ∈ Finset.range adjacency.cols, adjacency.ent i j) /
        adjacency.total⟩
  | .uniform => ⟨adjacency.rows, 1, fun _ _ => 1 / (adjacency.rows : ℚ)⟩
  | .custom v => ⟨adjacency.rows, 1, fun i _ =>
      v i / (∑ j ∈ Finset.range adjacency.rows, v j)⟩

structure AggregateGraph where
  n_nodes : ℕ
  norm_adjacency : SpMat
  out_probs : SpMat
  in_probs : Option SpMat

/-- `AggregateGraph.__init__` (lines 67-75): divides the adjacency by the
raw sum of its stored weights, with no guard against zero total mass. -/
def AggregateGraph.init (adjacency : SpMat) (out_weights : WeightSpec)
    (in_weights : Option WeightSpec) : AggregateGraph :=
  ⟨adjacency.rows,
   SpMat.scale (1 / adjacency.total) adjacency,
   check_probs out_weights adjacency,
   in_weights.map (fun w => check_probs w adjacency.transpose)⟩

/-- `AggregateGraph.aggregate` (lines 77-110), with scipy's products as
the only failure source: no validation of the assignment itself is
performed.  The products are evaluated in the source's order. -/
def AggregateGraph.aggregate (g : AggregateGraph)
    (row_membership : MembershipArg)
    (col_membership : Option MembershipArg) : Except String AggregateGraph :=
  let rm := row_membership.toMat
  match col_membership with
  | some cm0 => do
    let cm := cm0.toMat
    let inner ← g.norm_adjacency.dot cm
    let na ← rm.transpose.dot inner
    match g.in_probs with
    | none => .error "TypeError"
    | some ip => do
      let ipn ← cm.transpose.dot ip
      let op ← rm.transpose.dot g.out_probs
      .ok ⟨na.rows, na, op, some ipn⟩
  | none => do
    let inner ← g.norm_adjacency.dot rm
    let na ← rm.transpose.dot inner
    match g.in_probs with
    | some ip => do
      let ipn ← rm.transpose.dot ip
      let op ← rm.transpose.dot g.out_probs
      .ok ⟨na.rows, na, op, some ipn⟩
    | none => do
      let op ← rm.transpose.dot g.out_probs
      .ok ⟨na.rows, na, op, none⟩

/-! ## Engine selection and the optimizer constructor -/

inductive Engine
  | default
  | python
  | numba

/-- Modelled from the spec: `check_engine` (imported from
`sknetwork.utils.checks`, not part of this repository's sources) resolves
`'default'` by numba availability and fails with `UnsupportedEngine` when
the compiled path is requested but unavailable. -/
def check_engine (numba_available : Bool) : Engine → Except String Engine
  | .default => .ok (if numba_available then .numba else .python)
  | .python => .ok .python
  | .numba =>
    if numba_available then .ok .numba else .error "UnsupportedEngine"

structure GreedyModularity where
  resolution : ℚ
  tol : ℚ
  engine : Engine

/-- `GreedyModularity.__init__` (lines 256-260): stores `resolution` and
`tol` unchecked; only the engine is validated. -/
def GreedyModularity.init (resolution tol : ℚ) (numba_available : Bool)
    (engine : Engine) : Except String GreedyModularity :=
  match check_engine numba_available engine with
  | .error e => .error e
  | .ok eng => .ok ⟨resolution, tol, eng⟩

/-! ## The multilevel driver (`Louvain.fit`, lines 478-552)

Aggregated graphs change size, so the driver carries a size-indexed
graph.  The optimizer's dense labels (`np.unique` inverse) index the
clusters of the next level; composing the running membership with the
level's membership matrix is composition of label maps, since every
membership matrix has exactly one entry per row. -/

structure DGraph where
  k : ℕ
  adj : Fin k → Fin k → ℚ
  outP : Fin k → ℚ
  inP : Fin k → ℚ

def DGraph.toOpt (d : DGraph) : OptGraph d.k :=
  ⟨d.adj, d.outP, d.inP⟩

/-- Number of distinct sweep labels: the size of the aggregated graph. -/
def numClusters {n : ℕ} (lab : Fin n → Fin n) : ℕ :=
  (uniqueSorted lab).length

/-- The optimizer's dense labels as a function into the next level's
clusters. -/
def denseLabel {n : ℕ} (lab : Fin n → Fin n) (i : Fin n) :
    Fin (numClusters lab) :=
  ⟨denseRenumber lab i,
   List.indexOf_lt_length.2 (by
     rw [uniqueSorted, List.mem_filter]
     exact ⟨List.mem_finRange _, decide_eq_true ⟨i, rfl⟩⟩)⟩

/-- The dense label of a raw cluster id, for composing the running
membership (`membership.dot(agg_membership)`, line 528). -/
def denseNat {n : ℕ} (lab : Fin n → Fin n) (c : ℕ) : ℕ :=
  if h : c < n then denseRenumber lab ⟨c, h⟩ else 0

/-- `graph.aggregate(agg_membership)` (line 529) with the membership
matrix built from the dense labels: entry `(c, e)` of the new adjacency is
`membershipᵀ · adj · membership`, written fiberwise since every row holds
a single 1. -/
def aggregateD (d : DGraph) (lab : Fin d.k → Fin d.k) : DGraph where
  k := numClusters lab
  adj := fun c e => ∑ i : Fin d.k, ∑ j : Fin d.k,
    if denseLabel lab i = c ∧ denseLabel lab j = e then d.adj i j else 0
  outP := fun c => ∑ i : Fin d.k,
    if denseLabel lab i = c then d.outP i else 0
  inP := fun c => ∑ i : Fin d.k,
    if denseLabel lab i = c then d.inP i else 0

/-- The state of the multilevel loop: current aggregated graph, running
membership of the original nodes, iteration counter. -/
structure DState where
  g : DGraph
  membership : List ℕ
  iter : ℕ

/-- Why the loop of lines 519-537 stopped. -/
inductive StopReason
  | scoreLow
  | singleNode
  | capReached
deriving DecidableEq

/-- The `while increase` loop of `Louvain.fit` (lines 519-537), fuel
indexed; `none` models divergence (including divergence of the inner
optimizer loop, whose fuel is exhausted at every value exactly when the
source loop diverges).  The result carries the stopping state, the stop
reason and the optimizer score of the last iteration. -/
def driverLoop (res tol agg_tol : ℚ) (cap : ℤ) :
    ℕ → DState → Option (DState × StopReason × ℚ)
  | 0, _ => none
  | fuel + 1, st =>
    let r := fitCore st.g.toOpt res tol
    if r.converged = true then
      if r.total ≤ agg_tol then
        some ({ st with iter := st.iter + 1 }, .scoreLow, r.total)
      else
        let st' : DState :=
          { g := aggregateD st.g r.labels,
            membership := st.membership.map (denseNat r.labels),
            iter := st.iter + 1 }
        if (aggregateD st.g r.labels).k = 1 then
          some (st', .singleNode, r.total)
        else if (st.iter + 1 : ℤ) = cap then
          some (st', .capReached, r.total)
        else driverLoop res tol agg_tol cap fuel st'
    else none

/-- The driver loop reaches no stop condition at any fuel: the semantics
of a diverging run. -/
def driverLoopDiverges (res tol agg_tol : ℚ) (cap : ℤ) (st : DState) :
    Prop :=
  ∀ fuel, driverLoop res tol agg_tol cap fuel st = none

/-- Modelled from the spec: `bipartite2directed` (imported from
`sknetwork.utils.adjacency_formats`, not part of this repository's
sources) — the directed graph on the disjoint union of row and column
nodes whose row→column edges carry the original weights. -/
def bipartite2directed (B : SpMat) : SpMat :=
  ⟨B.rows + B.cols, B.rows + B.cols,
   fun i j => if i < B.rows ∧ B.rows ≤ j ∧ j < B.rows + B.cols then
     B.ent i (j - B.rows) else 0⟩

/-- Modelled from the spec: `reindex_clusters` (imported from
`sknetwork.clustering.post_processing`, not part of this repository's
sources) — re-index final cluster ids in descending order of cluster
size, ties broken by lowest original id; a pure relabeling. -/
def reindex_clusters (l : List ℕ) : List ℕ :=
  l.map (fun c => ((firstDedup l).filter (fun d =>
    decide (l.count c < l.count d) ||
    (decide (l.count d = l.count c) && decide (d < c)))).length)

/-- The graph handed to the optimizer: `norm_adjacency`, `out_probs`, and
`in_probs` with fallback to `out_probs` (lines 276-280). -/
def aggToD (ag : AggregateGraph) : DGraph where
  k := ag.n_nodes
  adj := fun i j => ag.norm_adjacency.ent i.val j.val
  outP := fun i => ag.out_probs.ent i.val 0
  inP := fun i => match ag.in_probs with
    | some ip => ip.ent i.val 0
    | none => ag.out_probs.ent i.val 0

/-- Line 497: `out_weights = np.hstack((primary_weights, np.zeros(n2)))`
with `primary_weights = check_probs('degree', adjacency)` (line 488). -/
def bipOw (B : SpMat) : ℕ → ℚ :=
  fun i => if i < B.rows then (check_probs .degree B).ent i 0 else 0

/-- Line 498: `in_weights = np.hstack((np.zeros(n1), secondary_weights))`
with `secondary_weights = check_probs('degree', adjacency.T)` (line 495). -/
def bipIw (B : SpMat) : ℕ → ℚ :=
  fun i =>
    if i < B.rows then 0 else (check_probs .degree B.transpose).ent (i - B.rows) 0

/-- The graph the driver starts from in the bipartite branch
(lines 481-498, `force_undirected=False`). -/
def bipD (B : SpMat) : DGraph :=
  aggToD (AggregateGraph.init (bipartite2directed B)
    (.custom (bipOw B)) (some (.custom (bipIw B))))

/-- The graph the driver starts from in the square, non-bipartite branch
(lines 499-504, `weights='degree'`). -/
def squareD (B : SpMat) : DGraph :=
  aggToD (AggregateGraph.init B .degree (some .degree))

/-- Lines 546-549: reindex the final labels by cluster size and split
them at `n1` when the aggregate loop ran on more than `n1` nodes. -/
def postLabels (n1 dk : ℕ) (m : List ℕ) : List ℕ × Option (List ℕ) :=
  let labels := reindex_clusters m
  if n1 < dk then (labels.take n1, some (labels.drop n1))
  else (labels, none)

/-- `Louvain.fit` (lines 478-552) for the default configuration
(`weights='degree'`, no shuffling, `sorted_cluster=True`,
`force_undirected=False`): preprocessing, the multilevel loop, and label
post-processing.  Returns `none` when the loop diverges. -/
def louvainFit (B : SpMat) (force_biadjacency : Bool)
    (res tol agg_tol : ℚ) (cap : ℤ) : Option (List ℕ × Option (List ℕ)) :=
  if B.rows ≠ B.cols ∨ force_biadjacency = true then
    -- bipartite branch (lines 481-498)
    let d := bipD B
    (driverLoop res tol agg_tol cap (d.k + 1) ⟨d, List.range d.k, 0⟩).map
      (fun out => postLabels B.rows d.k out.1.membership)
  else
    -- square, non-bipartite branch (lines 499-504)
    let d := squareD B
    (driverLoop res tol agg_tol cap (d.k + 1) ⟨d, List.range d.k, 0⟩).map
      (fun out => postLabels B.rows d.k out.1.membership)

/-- A two-node aggregate graph with one unit of edge mass split over the
edge 0–1 and uniform node masses. -/
def pairAgg : AggregateGraph :=
  ⟨2, ⟨2, 2, fun i j => if i = j then 0 else 1/2⟩,
   ⟨2, 1, fun _ _ => 1/2⟩, none⟩

/-- A membership matrix that assigns node 0 to cluster 0 and leaves node 1
unassigned (an all-zero row). -/
def unassignedMembership : SpMat :=
  ⟨2, 2, fun i j => if i = 0 ∧ j = 0 then 1 else 0⟩

/-- A membership matrix whose row count does not match `pairAgg`. -/
def mismatchMembership : SpMat :=
  ⟨3, 2, fun _ _ => 0⟩

/-- A one-entry adjacency of total mass 1. -/
def oneMat : SpMat :=
  ⟨1, 1, fun _ _ => 1⟩

/-- The one-node driver graph of `loopGraph`. -/
def loopD : DGraph :=
  ⟨1, loopGraph.adj, loopGraph.outP, loopGraph.inP⟩

/-- The two-node driver graph of `pairGraph`. -/
def pairD : DGraph :=
  ⟨2, pairGraph.adj, pairGraph.outP, pairGraph.inP⟩

/-- A rectangular 2×1 biadjacency with both entries set to 1. -/
def wideMat : SpMat :=
  ⟨2, 1, fun _ _ => 1⟩

theorem listMax_cons (x : ℚ) (l : List ℚ) (b : ℚ) :
    listMax (x :: l) b = listMax l (max b x) := rfl

theorem listMax_max (l : List ℚ) (a b : ℚ) :
    listMax l (max a b) = max a (listMax l b) := by
  induction l generalizing b with
  | nil => rfl
  | cons x l ih =>
    rw [listMax_cons, listMax_cons, max_assoc, ih]

theorem le_listMax (l : List ℚ) (b : ℚ) : b ≤ listMax l b := by
  induction l generalizing b with
  | nil => exact le_refl b
  | cons x l ih =>
    rw [listMax_cons]
    calc b ≤ max b x := le_max_left b x
    _ ≤ listMax l (max b x) := ih (max b x)

theorem mem_le_listMax {l : List ℚ} {x : ℚ} (hx : x ∈ l) (b : ℚ) :
    x ≤ listMax l b := by
  induction l generalizing b with
  | nil => cases hx
  | cons y l ih =>
    rw [listMax_cons]
    rcases List.mem_cons.1 hx with h | h
    · subst h
      calc x ≤ max b x := le_max_right b x
      _ ≤ listMax l (max b x) := le_listMax l (max b x)
    · exact ih h (max b y)

theorem listMax_mono_init {a b : ℚ} (l : List ℚ) (hab : a ≤ b) :
    listMax l a ≤ listMax l b := by
  induction l generalizing a b with
  | nil => exact hab
  | cons x l ih =>
    rw [listMax_cons, listMax_cons]
    exact ih (max_le_max hab (le_refl x))

theorem listMax_eq_or_mem (l : List ℚ) (b : ℚ) :
    listMax l b = b ∨ listMax l b ∈ l := by
  induction l generalizing b with
  | nil => exact Or.inl rfl
  | cons x l ih =>
    rw [listMax_cons]
    rcases ih (max b x) with h | h
    · rcases max_cases b x with ⟨he, _⟩ | ⟨he, _⟩
      · exact Or.inl (h.trans he)
      · exact Or.inr (by rw [h, he]; exact List.mem_cons_self x l)
    · exact Or.inr (List.mem_cons_of_mem x h)

theorem scanBest_cons {α : Type} (f : α → ℚ) (x : α) (l : List α)
    (init : ℚ × α) :
    scanBest f (x :: l) init =
      scanBest f l (if init.1 < f x then (f x, x) else init) := by
  cases init with
  | mk b c => simp only [scanBest, List.foldl_cons]

/-- The value tracked by the strict-improvement scan is the running
maximum of the scanned values and the initial value. -/
theorem scanBest_fst {α : Type} (f : α → ℚ) (l : List α) (b : ℚ) (c : α) :
    (scanBest f l (b, c)).1 = listMax (l.map f) b := by
  induction l generalizing b c with
  | nil => rfl
  | cons x l ih =>
    rw [scanBest_cons]
    simp only [List.map_cons, listMax_cons]
    by_cases hbx : b < f x
    · rw [if_pos hbx, ih, max_eq_right (le_of_lt hbx)]
    · rw [if_neg hbx, ih, max_eq_left (le_of_not_lt hbx)]

/-- When no scanned value strictly exceeds the initial value, the scan
payload is unchanged. -/
theorem scanBest_snd_of_not_lt {α : Type} (f : α → ℚ) (l : List α)
    (b : ℚ) (c : α) (h : ¬ b < listMax (l.map f) b) :
    (scanBest f l (b, c)).2 = c := by
  induction l generalizing b c with
  | nil => rfl
  | cons x l ih =>
    rw [scanBest_cons]
    simp only [List.map_cons, listMax_cons] at h
    have hfxb : f x ≤ b := by
      by_contra hcon
      have h1 : b < f x := lt_of_not_le hcon
      have h2 : f x ≤ listMax (l.map f) (max b (f x)) := by
        calc f x ≤ max b (f x) := le_max_right b (f x)
        _ ≤ listMax (l.map f) (max b (f x)) := le_listMax _ _
      exact h (lt_of_lt_of_le h1 h2)
    have hbx : ¬ b < f x := not_lt_of_le hfxb
    rw [if_neg hbx]
    refine ih b c ?_
    intro hlt
    refine h ?_
    have : listMax (l.map f) b ≤ listMax (l.map f) (max b (f x)) :=
      listMax_mono_init _ (le_max_left b (f x))
    exact lt_of_lt_of_le hlt this

/-- When some scanned value strictly exceeds the initial value, the scan
payload is the first element attaining the running maximum. -/
theorem scanBest_snd_of_lt {α : Type} (f : α → ℚ) (l : List α)
    (b : ℚ) (c : α) (z : α)
    (hlt : b < listMax (l.map f) b)
    (hfind : l.find? (fun w => decide (f w = listMax (l.map f) b)) = some z) :
    (scanBest f l (b, c)).2 = z := by
  induction l generalizing b c with
  | nil => exact absurd hlt (lt_irrefl b)
  | cons x l ih =>
    have hMcons : listMax ((x :: l).map f) b = listMax (l.map f) (max b (f x)) := by
      simp only [List.map_cons, listMax_cons]
    rw [scanBest_cons]
    by_cases hbx : b < f x
    · rw [if_pos hbx]
      have hMx : listMax ((x :: l).map f) b = listMax (l.map f) (f x) := by
        rw [hMcons, max_eq_right (le_of_lt hbx)]
      by_cases hxmax : f x = listMax ((x :: l).map f) b
      · -- the head attains the maximum, so `find?` returns it and the later
        -- scan never strictly improves
        have hfind2 : List.find?
            (fun w => decide (f w = listMax ((x :: l).map f) b)) (x :: l) =
            some x :=
          List.find?_cons_of_pos l (decide_eq_true hxmax)
        have hzx : x = z := Option.some.inj (hfind2 ▸ hfind)
        subst hzx
        refine scanBest_snd_of_not_lt f l (f x) x ?_
        rw [← hMx, ← hxmax]
        exact lt_irrefl (f x)
      · have hxlt : f x < listMax (l.map f) (f x) := by
          refine lt_of_le_of_ne (le_listMax _ _) ?_
          rw [← hMx]
          exact hxmax
        have hstep2 : List.find?
            (fun w => decide (f w = listMax ((x :: l).map f) b)) (x :: l) =
            l.find? (fun w => decide (f w = listMax ((x :: l).map f) b)) :=
          List.find?_cons_of_neg l (fun hd => hxmax (of_decide_eq_true hd))
        have hfind' : l.find?
            (fun w => decide (f w = listMax ((x :: l).map f) b)) = some z := by
          rw [← hstep2]
          exact hfind
        rw [hMx] at hfind'
        exact ih (f x) x hxlt hfind'
    · rw [if_neg hbx]
      have hMb : listMax ((x :: l).map f) b = listMax (l.map f) b := by
        rw [hMcons, max_eq_left (le_of_not_lt hbx)]
      have hblt : b < listMax (l.map f) b := by rw [← hMb]; exact hlt
      have hxne : ¬ (f x = listMax ((x :: l).map f) b) := by
        intro he
        rw [hMb] at he
        exact hbx (he ▸ hblt)
      have hstep2 : List.find?
          (fun w => decide (f w = listMax ((x :: l).map f) b)) (x :: l) =
          l.find? (fun w => decide (f w = listMax ((x :: l).map f) b)) :=
        List.find?_cons_of_neg l (fun hd => hxne (of_decide_eq_true hd))
      have hfind' : l.find?
          (fun w => decide (f w = listMax ((x :: l).map f) b)) = some z := by
        rw [← hstep2]
        exact hfind
      rw [hMb] at hfind'
      exact ih b c hblt hfind'

theorem foldl_bucket_eq {n : ℕ} (g : OptGraph n) (lab : Fin n → Fin n)
    (i : Fin n) (l : List (Fin n)) (acc : Fin n → ℚ) (c : Fin n) :
    (l.foldl
      (fun acc j => Function.update acc (lab j) (acc (lab j) + symAdj g i j))
      acc) c =
      acc c + ((l.filter (fun j => decide (lab j = c))).map
        (fun j => symAdj g i j)).sum := by
  induction l generalizing acc with
  | nil => simp
  | cons j l ih =>
    rw [List.foldl_cons, ih]
    by_cases hc : lab j = c
    · rw [List.filter_cons_of_pos (by exact decide_eq_true hc)]
      rw [List.map_cons, List.sum_cons]
      rw [Function.update_apply]
      rw [if_pos hc.symm]
      rw [hc]
      ring
    · rw [List.filter_cons_of_neg (by
        intro hd
        exact hc (of_decide_eq_true hd))]
      rw [Function.update_apply]
      rw [if_neg (fun he => hc he.symm)]

theorem filter_map_sum_drop {n : ℕ} (f : Fin n → ℚ) (q r : Fin n → Bool)
    (l : List (Fin n)) (hq : ∀ a, q a = false → f a = 0) :
    (((l.filter q).filter r).map f).sum = ((l.filter r).map f).sum := by
  induction l with
  | nil => rfl
  | cons a l ih =>
    by_cases hqa : q a = true
    · rw [List.filter_cons_of_pos hqa]
      by_cases hra : r a = true
      · rw [List.filter_cons_of_pos hra, List.filter_cons_of_pos hra]
        rw [List.map_cons, List.sum_cons, List.map_cons, List.sum_cons, ih]
      · rw [List.filter_cons_of_neg hra, List.filter_cons_of_neg hra, ih]
    · have hqa' : q a = false := by
        cases h : q a
        · rfl
        · exact absurd h hqa
      rw [List.filter_cons_of_neg hqa]
      by_cases hra : r a = true
      · rw [List.filter_cons_of_pos hra]
        rw [List.map_cons, List.sum_cons, hq a hqa', zero_add, ih]
      · rw [List.filter_cons_of_neg hra, ih]

theorem filter_map_sum_eq_ite_sum {n : ℕ} (f : Fin n → ℚ) (r : Fin n → Bool)
    (l : List (Fin n)) :
    ((l.filter r).map f).sum = (l.map (fun a => if r a then f a else 0)).sum := by
  induction l with
  | nil => rfl
  | cons a l ih =>
    by_cases hra : r a = true
    · rw [List.filter_cons_of_pos hra, List.map_cons, List.sum_cons, ih,
        List.map_cons, List.sum_cons, if_pos hra]
    · rw [List.filter_cons_of_neg hra, ih, List.map_cons, List.sum_cons]
      rw [if_neg hra, zero_add]

theorem maskedSum_eq_edgeMass {n : ℕ} (g : OptGraph n) (lab : Fin n → Fin n)
    (i c : Fin n) :
    maskedSum g lab i c = edgeMass g lab i c := by
  rw [maskedSum, neighborsList]
  rw [filter_map_sum_drop (fun j => symAdj g i j)
      (fun j => decide (symAdj g i j ≠ 0)) (fun j => decide (lab j = c))
      (List.finRange n)
      (fun a ha => by
        by_contra hne
        rw [decide_eq_false_iff_not] at ha
        exact ha hne)]
  rw [filter_map_sum_eq_ite_sum]
  rw [edgeMass, Fin.sum_univ_def]
  congr 1
  refine List.map_congr_left ?_
  intro a _
  by_cases h : lab a = c
  · rw [if_pos h, if_pos (by exact decide_eq_true h)]
  · rw [if_neg h, if_neg (by
      intro hd
      exact h (of_decide_eq_true hd))]

theorem bucketWeights_eq_edgeMass {n : ℕ} (g : OptGraph n)
    (lab : Fin n → Fin n) (i c : Fin n) :
    bucketWeights g lab i c = edgeMass g lab i c := by
  rw [bucketWeights, foldl_bucket_eq, zero_add]
  rw [← maskedSum_eq_edgeMass, maskedSum]

theorem exitDelta_eq {n : ℕ} (g : OptGraph n) (res : ℚ) (s : SweepState n)
    (i : Fin n) :
    exitDelta g res s.labels s.outCW s.inCW i = exitScore g res s i := by
  rw [exitDelta, exitScore, bucketWeights_eq_edgeMass]

theorem candDelta_eq {n : ℕ} (g : OptGraph n) (res : ℚ) (s : SweepState n)
    (i c : Fin n) :
    candDelta g res s.labels s.outCW s.inCW i c = candScore g res s i c := by
  rw [candDelta, candScore, bucketWeights_eq_edgeMass]

theorem pyExitDelta_eq {n : ℕ} (g : OptGraph n) (res : ℚ) (s : SweepState n)
    (i : Fin n) :
    pyExitDelta g res s.labels s.outCW s.inCW i = exitScore g res s i := by
  rw [pyExitDelta, exitScore, maskedSum_eq_edgeMass]

theorem pyCandDelta_eq {n : ℕ} (g : OptGraph n) (res : ℚ) (s : SweepState n)
    (i c : Fin n) :
    pyCandDelta g res s.labels s.outCW s.inCW i c = candScore g res s i c := by
  rw [pyCandDelta, candScore, maskedSum_eq_edgeMass]

theorem listMax_le {l : List ℚ} {b m : ℚ} (hb : b ≤ m)
    (hl : ∀ x ∈ l, x ≤ m) : listMax l b ≤ m := by
  induction l generalizing b with
  | nil => exact hb
  | cons x l ih =>
    rw [listMax_cons]
    refine ih (max_le hb (hl x (List.mem_cons_self x l))) ?_
    intro y hy
    exact hl y (List.mem_cons_of_mem x hy)

theorem listMax_absorb_mem {l : List ℚ} {x b : ℚ} (hx : x ∈ l) :
    listMax l (max b x) = listMax l b := by
  refine le_antisymm ?_ (listMax_mono_init l (le_max_left b x))
  refine listMax_le (max_le (le_listMax l b) (mem_le_listMax hx b)) ?_
  intro y hy
  exact mem_le_listMax hy b

theorem processNode_stay {n : ℕ} (g : OptGraph n) (res : ℚ)
    (s : SweepState n) (acc : ℚ) (i : Fin n)
    (h : ∀ c ∈ uniqueClusters g s.labels i, clusterGain g res s i c ≤ 0) :
    processNode g res (s, acc) i = (s, acc) := by
  rw [processNode]
  by_cases he : (uniqueClusters g s.labels i).isEmpty
  · simp only [he]
    rfl
  · simp only [he]
    have hfst : (scanBest
        (fun c => candDelta g res s.labels s.outCW s.inCW i c -
          exitDelta g res s.labels s.outCW s.inCW i)
        (uniqueClusters g s.labels i) (0, s.labels i)).1 =
        listMax ((uniqueClusters g s.labels i).map
          (fun c => candDelta g res s.labels s.outCW s.inCW i c -
            exitDelta g res s.labels s.outCW s.inCW i)) 0 :=
      scanBest_fst _ _ _ _
    have hmax_le : listMax ((uniqueClusters g s.labels i).map
        (fun c => candDelta g res s.labels s.outCW s.inCW i c -
          exitDelta g res s.labels s.outCW s.inCW i)) 0 ≤ 0 := by
      refine listMax_le (le_refl 0) ?_
      intro x hx
      obtain ⟨c, hc, hcx⟩ := List.mem_map.1 hx
      rw [← hcx, candDelta_eq, exitDelta_eq]
      exact h c hc
    have hnot : ¬ (0 : ℚ) < (scanBest
        (fun c => candDelta g res s.labels s.outCW s.inCW i c -
          exitDelta g res s.labels s.outCW s.inCW i)
        (uniqueClusters g s.labels i) (0, s.labels i)).1 := by
      rw [hfst]
      exact not_lt_of_le hmax_le
    simp only [hnot]
    rfl

theorem processNode_move {n : ℕ} (g : OptGraph n) (res : ℚ)
    (s : SweepState n) (acc : ℚ) (i : Fin n)
    (hex : ∃ c ∈ uniqueClusters g s.labels i, 0 < clusterGain g res s i c) :
    ∃ B, B ∈ uniqueClusters g s.labels i ∧ 0 < clusterGain g res s i B ∧
      (∀ c ∈ uniqueClusters g s.labels i,
        clusterGain g res s i c ≤ clusterGain g res s i B) ∧
      processNode g res (s, acc) i =
        (movedState g s i B, acc + clusterGain g res s i B) := by
  obtain ⟨c₀, hc₀, hpos₀⟩ := hex
  set f := fun c => candDelta g res s.labels s.outCW s.inCW i c -
    exitDelta g res s.labels s.outCW s.inCW i with hf
  have hfg : ∀ c, f c = clusterGain g res s i c := by
    intro c
    rw [hf]
    simp only []
    rw [candDelta_eq, exitDelta_eq, clusterGain]
  set uc := uniqueClusters g s.labels i with huc
  set M := listMax (uc.map f) 0 with hM
  have hMpos : 0 < M := by
    rw [hM]
    calc (0 : ℚ) < clusterGain g res s i c₀ := hpos₀
    _ = f c₀ := (hfg c₀).symm
    _ ≤ listMax (uc.map f) 0 := mem_le_listMax (List.mem_map_of_mem f hc₀) 0
  have hMmem : M ∈ uc.map f := by
    rcases listMax_eq_or_mem (uc.map f) 0 with h | h
    · rw [hM] at hMpos
      rw [h] at hMpos
      exact absurd hMpos (lt_irrefl 0)
    · exact h
  have hfind : ∃ z, uc.find? (fun w => decide (f w = M)) = some z := by
    obtain ⟨B, hB, hBf⟩ := List.mem_map.1 hMmem
    rw [← Option.isSome_iff_exists]
    rw [List.find?_isSome]
    exact ⟨B, hB, decide_eq_true hBf⟩
  obtain ⟨z, hz⟩ := hfind
  have hz_mem : z ∈ uc := List.mem_of_find?_eq_some hz
  have hz_pred : (fun w => decide (f w = M)) z = true :=
    @List.find?_some (Fin n) (fun w => decide (f w = M)) z uc hz
  have hz_val : f z = M := of_decide_eq_true hz_pred
  refine ⟨z, hz_mem, ?_, ?_, ?_⟩
  · rw [← hfg, hz_val]
    exact hMpos
  · intro c hc
    rw [← hfg, ← hfg, hz_val]
    exact mem_le_listMax (List.mem_map_of_mem f hc) 0
  · rw [processNode]
    have hne : ¬ uc.isEmpty := by
      have hnn : uc ≠ [] := List.ne_nil_of_mem hc₀
      simpa [List.isEmpty_iff] using hnn
    simp only [← huc, hne]
    have hfst : (scanBest f uc (0, s.labels i)).1 = M :=
      scanBest_fst f uc 0 (s.labels i)
    have hsnd : (scanBest f uc (0, s.labels i)).2 = z :=
      scanBest_snd_of_lt f uc 0 (s.labels i) z (hM ▸ hMpos) hz
    simp only [← hf, hfst, hsnd]
    simp only [hMpos]
    rw [movedState, ← hfg, hz_val]
    rfl

theorem find?_congrP {α : Type} (p q : α → Bool) (l : List α)
    (h : ∀ a, p a = q a) : l.find? p = l.find? q := by
  induction l with
  | nil => rfl
  | cons a l ih =>
    by_cases hpa : p a = true
    · rw [List.find?_cons_of_pos l hpa, List.find?_cons_of_pos l (by
        rw [← h a]; exact hpa)]
    · rw [List.find?_cons_of_neg l hpa, List.find?_cons_of_neg l (by
        rw [← h a]; exact hpa), ih]

theorem zip_self_map {α β : Type} (l : List α) (f : α → β) :
    l.zip (l.map f) = l.map (fun a => (a, f a)) := by
  have h := List.zip_map' id f l
  simpa using h

theorem processNode_eq_refStep {n : ℕ} (g : OptGraph n) (res : ℚ)
    (si : SweepState n × ℚ) (i : Fin n) :
    processNode g res si i = refStep g res si i := by
  obtain ⟨s, acc⟩ := si
  have hgain : ∀ c, candDelta g res s.labels s.outCW s.inCW i c -
      exitDelta g res s.labels s.outCW s.inCW i = clusterGain g res s i c := by
    intro c
    rw [candDelta_eq, exitDelta_eq, clusterGain]
  cases huc : uniqueClusters g s.labels i with
  | nil =>
    rw [processNode, refStep]
    simp only [huc]
    simp [listMax]
  | cons c₁ rest =>
    rw [processNode, refStep]
    simp only [huc]
    have hmap : (c₁ :: rest).map (fun c =>
        candDelta g res s.labels s.outCW s.inCW i c -
          exitDelta g res s.labels s.outCW s.inCW i) =
        (c₁ :: rest).map (clusterGain g res s i) :=
      List.map_congr_left (fun c _ => hgain c)
    have hfst : (scanBest (fun c =>
        candDelta g res s.labels s.outCW s.inCW i c -
          exitDelta g res s.labels s.outCW s.inCW i)
        (c₁ :: rest) (0, s.labels i)).1 =
        listMax ((c₁ :: rest).map (clusterGain g res s i)) 0 := by
      rw [scanBest_fst, hmap]
    have hempty : ((c₁ :: rest).isEmpty : Bool) = false := rfl
    simp only [hempty, Bool.false_eq_true, if_false, hfst]
    set M := listMax ((c₁ :: rest).map (clusterGain g res s i)) 0 with hM
    by_cases hMpos : 0 < M
    · have hMmem : M ∈ (c₁ :: rest).map (clusterGain g res s i) := by
        rcases listMax_eq_or_mem ((c₁ :: rest).map (clusterGain g res s i)) 0
          with h | h
        · rw [← hM] at h
          rw [h] at hMpos
          exact absurd hMpos (lt_irrefl 0)
        · rw [← hM] at h
          exact h
      have hsome : ∃ z, (c₁ :: rest).find?
          (fun w => decide (clusterGain g res s i w = M)) = some z := by
        obtain ⟨B, hB, hBf⟩ := List.mem_map.1 hMmem
        rw [← Option.isSome_iff_exists, List.find?_isSome]
        exact ⟨B, hB, decide_eq_true hBf⟩
      obtain ⟨z, hz⟩ := hsome
      have hMN : listMax ((c₁ :: rest).map (fun c =>
          candDelta g res s.labels s.outCW s.inCW i c -
            exitDelta g res s.labels s.outCW s.inCW i)) 0 = M := by
        rw [hmap]
      have hsnd : (scanBest (fun c =>
          candDelta g res s.labels s.outCW s.inCW i c -
            exitDelta g res s.labels s.outCW s.inCW i)
          (c₁ :: rest) (0, s.labels i)).2 = z := by
        refine scanBest_snd_of_lt _ _ 0 (s.labels i) z ?_ ?_
        · rw [hMN]
          exact hMpos
        · have hcongr := find?_congrP
            (fun w => decide (candDelta g res s.labels s.outCW s.inCW i w -
              exitDelta g res s.labels s.outCW s.inCW i =
              listMax ((c₁ :: rest).map (fun c =>
                candDelta g res s.labels s.outCW s.inCW i c -
                  exitDelta g res s.labels s.outCW s.inCW i)) 0))
            (fun w => decide (clusterGain g res s i w = M))
            (c₁ :: rest)
            (fun a => by
              have hb : (candDelta g res s.labels s.outCW s.inCW i a -
                  exitDelta g res s.labels s.outCW s.inCW i =
                  listMax ((c₁ :: rest).map (fun c =>
                    candDelta g res s.labels s.outCW s.inCW i c -
                      exitDelta g res s.labels s.outCW s.inCW i)) 0) =
                  (clusterGain g res s i a = M) := by
                rw [hMN, hgain a]
              exact decide_eq_decide.2 (iff_of_eq hb))
          exact hcongr.trans hz
      simp only [hMpos, if_true, hsnd, hz]
      rfl
    · simp only [hMpos, if_false]

theorem pyProcessNode_eq_refStep {n : ℕ} (g : OptGraph n) (res : ℚ)
    (si : SweepState n × ℚ) (i : Fin n) :
    pyProcessNode g res si i = refStep g res si i := by
  obtain ⟨s, acc⟩ := si
  have hgain : ∀ c, pyCandDelta g res s.labels s.outCW s.inCW i c -
      pyExitDelta g res s.labels s.outCW s.inCW i = clusterGain g res s i c := by
    intro c
    rw [pyCandDelta_eq, pyExitDelta_eq, clusterGain]
  cases huc : uniqueClusters g s.labels i with
  | nil =>
    rw [pyProcessNode, refStep]
    simp only [huc]
    simp [listMax]
  | cons c₁ rest =>
    rw [pyProcessNode, refStep]
    simp only [huc]
    rw [if_pos (show 0 < (c₁ :: rest).length by simp)]
    have hmap : (c₁ :: rest).map (fun c =>
        pyCandDelta g res s.labels s.outCW s.inCW i c -
          pyExitDelta g res s.labels s.outCW s.inCW i) =
        (c₁ :: rest).map (clusterGain g res s i) :=
      List.map_congr_left (fun c _ => hgain c)
    -- the zipped cluster/score pairs are a mapped list
    have hpairs : (c₁ :: rest).zip ((c₁ :: rest).map (fun c =>
        pyCandDelta g res s.labels s.outCW s.inCW i c -
          pyExitDelta g res s.labels s.outCW s.inCW i)) =
        (c₁ :: rest).map (fun a => (a,
          pyCandDelta g res s.labels s.outCW s.inCW i a -
            pyExitDelta g res s.labels s.outCW s.inCW i)) :=
      zip_self_map _ _
    rw [hpairs]
    have hhead : ((c₁ :: rest).map (fun a => (a,
        pyCandDelta g res s.labels s.outCW s.inCW i a -
          pyExitDelta g res s.labels s.outCW s.inCW i))).headD
        (s.labels i, 0) = (c₁,
          pyCandDelta g res s.labels s.outCW s.inCW i c₁ -
            pyExitDelta g res s.labels s.outCW s.inCW i) := rfl
    rw [hhead]
    have hsndmap : (((c₁ :: rest).map (fun a => (a,
        pyCandDelta g res s.labels s.outCW s.inCW i a -
          pyExitDelta g res s.labels s.outCW s.inCW i))).map Prod.snd) =
        (c₁ :: rest).map (fun c =>
          pyCandDelta g res s.labels s.outCW s.inCW i c -
            pyExitDelta g res s.labels s.outCW s.inCW i) := by
      rw [List.map_map]
      rfl
    set gc₁ := pyCandDelta g res s.labels s.outCW s.inCW i c₁ -
      pyExitDelta g res s.labels s.outCW s.inCW i with hgc₁
    set Mh := listMax ((c₁ :: rest).map (clusterGain g res s i))
      (clusterGain g res s i c₁) with hMh
    set M := listMax ((c₁ :: rest).map (clusterGain g res s i)) 0 with hM0
    have hgc₁_gain : gc₁ = clusterGain g res s i c₁ := hgain c₁
    have hvalP : listMax (((c₁ :: rest).map (fun a => (a,
        pyCandDelta g res s.labels s.outCW s.inCW i a -
          pyExitDelta g res s.labels s.outCW s.inCW i))).map Prod.snd) gc₁ =
        Mh := by
      rw [hsndmap, hmap, hgc₁_gain, hMh]
    have hMmaxh : M = max 0 Mh := by
      have h1 : listMax ((c₁ :: rest).map (clusterGain g res s i))
          (max 0 (clusterGain g res s i c₁)) = max 0 Mh := by
        rw [listMax_max, hMh]
      have h2 : listMax ((c₁ :: rest).map (clusterGain g res s i))
          (max 0 (clusterGain g res s i c₁)) = M := by
        rw [listMax_absorb_mem (List.mem_map_of_mem _
          (List.mem_cons_self c₁ rest)), hM0]
      rw [← h2, h1]
    have hfst := scanBest_fst (fun p : Fin n × ℚ => p.2)
      ((c₁ :: rest).map (fun a => (a,
        pyCandDelta g res s.labels s.outCW s.inCW i a -
          pyExitDelta g res s.labels s.outCW s.inCW i))) gc₁
      (c₁, gc₁)
    by_cases hMhpos : 0 < Mh
    · have hMeq : M = Mh := by
        rw [hMmaxh, max_eq_right (le_of_lt hMhpos)]
      have hMpos : 0 < M := by
        rw [hMeq]
        exact hMhpos
      -- the reference step moves to the first cluster attaining the maximum
      have hMmem : M ∈ (c₁ :: rest).map (clusterGain g res s i) := by
        rcases listMax_eq_or_mem ((c₁ :: rest).map (clusterGain g res s i)) 0
          with h | h
        · rw [← hM0] at h
          rw [h] at hMpos
          exact absurd hMpos (lt_irrefl 0)
        · rw [← hM0] at h
          exact h
      have hsome : ∃ z, (c₁ :: rest).find?
          (fun w => decide (clusterGain g res s i w = M)) = some z := by
        obtain ⟨B, hB, hBf⟩ := List.mem_map.1 hMmem
        rw [← Option.isSome_iff_exists, List.find?_isSome]
        exact ⟨B, hB, decide_eq_true hBf⟩
      obtain ⟨z, hz⟩ := hsome
      rw [hz]
      by_cases hc₁lt : gc₁ < listMax (((c₁ :: rest).map (fun a => (a,
          pyCandDelta g res s.labels s.outCW s.inCW i a -
            pyExitDelta g res s.labels s.outCW s.inCW i))).map Prod.snd) gc₁
      · -- a later pair strictly beats the head: the scan lands on the
        -- first pair attaining the maximum
        have hfind_pairs : ((c₁ :: rest).map (fun a => (a,
            pyCandDelta g res s.labels s.outCW s.inCW i a -
              pyExitDelta g res s.labels s.outCW s.inCW i))).find?
            (fun p => decide (p.2 = listMax (((c₁ :: rest).map (fun a => (a,
              pyCandDelta g res s.labels s.outCW s.inCW i a -
                pyExitDelta g res s.labels s.outCW s.inCW i))).map Prod.snd)
              gc₁)) = some (z,
                pyCandDelta g res s.labels s.outCW s.inCW i z -
                  pyExitDelta g res s.labels s.outCW s.inCW i) := by
          rw [List.find?_map]
          have hinner : (c₁ :: rest).find? ((fun p : Fin n × ℚ =>
              decide (p.2 = listMax (((c₁ :: rest).map (fun a => (a,
                pyCandDelta g res s.labels s.outCW s.inCW i a -
                  pyExitDelta g res s.labels s.outCW s.inCW i))).map
                  Prod.snd) gc₁)) ∘ (fun a => (a,
                pyCandDelta g res s.labels s.outCW s.inCW i a -
                  pyExitDelta g res s.labels s.outCW s.inCW i))) =
              some z := by
            have hcongr := find?_congrP ((fun p : Fin n × ℚ =>
              decide (p.2 = listMax (((c₁ :: rest).map (fun a => (a,
                pyCandDelta g res s.labels s.outCW s.inCW i a -
                  pyExitDelta g res s.labels s.outCW s.inCW i))).map
                  Prod.snd) gc₁)) ∘ (fun a => (a,
                pyCandDelta g res s.labels s.outCW s.inCW i a -
                  pyExitDelta g res s.labels s.outCW s.inCW i)))
              (fun w => decide (clusterGain g res s i w = M))
              (c₁ :: rest)
              (fun a => by
                have hb : (pyCandDelta g res s.labels s.outCW s.inCW i a -
                    pyExitDelta g res s.labels s.outCW s.inCW i =
                    listMax (((c₁ :: rest).map (fun a => (a,
                      pyCandDelta g res s.labels s.outCW s.inCW i a -
                        pyExitDelta g res s.labels s.outCW s.inCW i))).map
                      Prod.snd) gc₁) =
                    (clusterGain g res s i a = M) := by
                  rw [hvalP, hgain a, hMeq]
                exact decide_eq_decide.2 (iff_of_eq hb))
            rw [hcongr]
            exact hz
          rw [hinner]
          rfl
        have hsnd := scanBest_snd_of_lt (fun p : Fin n × ℚ => p.2)
          ((c₁ :: rest).map (fun a => (a,
            pyCandDelta g res s.labels s.outCW s.inCW i a -
              pyExitDelta g res s.labels s.outCW s.inCW i)))
          gc₁ (c₁, gc₁) (z,
            pyCandDelta g res s.labels s.outCW s.inCW i z -
              pyExitDelta g res s.labels s.outCW s.inCW i)
          hc₁lt hfind_pairs
        rw [hsnd]
        have hzval : pyCandDelta g res s.labels s.outCW s.inCW i z -
            pyExitDelta g res s.labels s.outCW s.inCW i = M := by
          rw [hgain z]
          have := @List.find?_some (Fin n)
            (fun w => decide (clusterGain g res s i w = M)) z (c₁ :: rest) hz
          exact of_decide_eq_true this
        rw [hzval]
        simp only [hMpos, if_true]
        rfl
      · -- the head pair already attains the maximum: the scan keeps it and
        -- `find?` returns the head as well
        have hsnd := scanBest_snd_of_not_lt (fun p : Fin n × ℚ => p.2)
          ((c₁ :: rest).map (fun a => (a,
            pyCandDelta g res s.labels s.outCW s.inCW i a -
              pyExitDelta g res s.labels s.outCW s.inCW i)))
          gc₁ (c₁, gc₁) hc₁lt
        rw [hsnd]
        have hc₁max : gc₁ = Mh := by
          refine le_antisymm ?_ ?_
          · rw [hgc₁_gain, hMh]
            exact le_listMax _ _
          · rw [← hvalP]
            exact le_of_not_lt hc₁lt
        have hz_c₁ : z = c₁ := by
          have hfind_hd : (c₁ :: rest).find?
              (fun w => decide (clusterGain g res s i w = M)) = some c₁ :=
            List.find?_cons_of_pos rest (decide_eq_true (by
              rw [← hgain c₁, ← hgc₁, hc₁max, hMeq]))
          have := hz.symm.trans hfind_hd
          exact Option.some.inj this
        have hgate : gc₁ = M := by
          rw [hc₁max, hMeq]
        rw [hgate]
        simp only [hMpos, if_true]
        rw [hz_c₁]
        rfl
    · -- no positive gain: both engines keep the state
      have hMzero : M = 0 := by
        rw [hMmaxh, max_eq_left (le_of_not_lt hMhpos)]
      have hnotM : ¬ (0 : ℚ) < M := by
        rw [hMzero]
        exact lt_irrefl 0
      simp only [hnotM, if_false]
      by_cases hc₁lt : gc₁ < listMax (((c₁ :: rest).map (fun a => (a,
          pyCandDelta g res s.labels s.outCW s.inCW i a -
            pyExitDelta g res s.labels s.outCW s.inCW i))).map Prod.snd) gc₁
      · have hMh_mem : Mh ∈ (c₁ :: rest).map (clusterGain g res s i) := by
          rcases listMax_eq_or_mem ((c₁ :: rest).map (clusterGain g res s i))
            (clusterGain g res s i c₁) with h | h
          · rw [← hMh] at h
            rw [hvalP] at hc₁lt
            rw [h, ← hgc₁_gain] at hc₁lt
            exact absurd hc₁lt (lt_irrefl gc₁)
          · rw [← hMh] at h
            exact h
        have hsome : ∃ z, (c₁ :: rest).find?
            (fun w => decide (clusterGain g res s i w = Mh)) = some z := by
          obtain ⟨B, hB, hBf⟩ := List.mem_map.1 hMh_mem
          rw [← Option.isSome_iff_exists, List.find?_isSome]
          exact ⟨B, hB, decide_eq_true hBf⟩
        obtain ⟨z, hz⟩ := hsome
        have hfind_pairs : ((c₁ :: rest).map (fun a => (a,
            pyCandDelta g res s.labels s.outCW s.inCW i a -
              pyExitDelta g res s.labels s.outCW s.inCW i))).find?
            (fun p => decide (p.2 = listMax (((c₁ :: rest).map (fun a => (a,
              pyCandDelta g res s.labels s.outCW s.inCW i a -
                pyExitDelta g res s.labels s.outCW s.inCW i))).map Prod.snd)
              gc₁)) = some (z,
                pyCandDelta g res s.labels s.outCW s.inCW i z -
                  pyExitDelta g res s.labels s.outCW s.inCW i) := by
          rw [List.find?_map]
          have hinner : (c₁ :: rest).find? ((fun p : Fin n × ℚ =>
              decide (p.2 = listMax (((c₁ :: rest).map (fun a => (a,
                pyCandDelta g res s.labels s.outCW s.inCW i a -
                  pyExitDelta g res s.labels s.outCW s.inCW i))).map
                  Prod.snd) gc₁)) ∘ (fun a => (a,
                pyCandDelta g res s.labels s.outCW s.inCW i a -
                  pyExitDelta g res s.labels s.outCW s.inCW i))) =
              some z := by
            have hcongr := find?_congrP ((fun p : Fin n × ℚ =>
              decide (p.2 = listMax (((c₁ :: rest).map (fun a => (a,
                pyCandDelta g res s.labels s.outCW s.inCW i a -
                  pyExitDelta g res s.labels s.outCW s.inCW i))).map
                  Prod.snd) gc₁)) ∘ (fun a => (a,
                pyCandDelta g res s.labels s.outCW s.inCW i a -
                  pyExitDelta g res s.labels s.outCW s.inCW i)))
              (fun w => decide (clusterGain g res s i w = Mh))
              (c₁ :: rest)
              (fun a => by
                have hb : (pyCandDelta g res s.labels s.outCW s.inCW i a -
                    pyExitDelta g res s.labels s.outCW s.inCW i =
                    listMax (((c₁ :: rest).map (fun a => (a,
                      pyCandDelta g res s.labels s.outCW s.inCW i a -
                        pyExitDelta g res s.labels s.outCW s.inCW i))).map
                      Prod.snd) gc₁) =
                    (clusterGain g res s i a = Mh) := by
                  rw [hvalP, hgain a]
                exact decide_eq_decide.2 (iff_of_eq hb))
            rw [hcongr]
            exact hz
          rw [hinner]
          rfl
        have hsnd := scanBest_snd_of_lt (fun p : Fin n × ℚ => p.2)
          ((c₁ :: rest).map (fun a => (a,
            pyCandDelta g res s.labels s.outCW s.inCW i a -
              pyExitDelta g res s.labels s.outCW s.inCW i)))
          gc₁ (c₁, gc₁) (z,
            pyCandDelta g res s.labels s.outCW s.inCW i z -
              pyExitDelta g res s.labels s.outCW s.inCW i)
          hc₁lt hfind_pairs
        rw [hsnd]
        have hzval : pyCandDelta g res s.labels s.outCW s.inCW i z -
            pyExitDelta g res s.labels s.outCW s.inCW i = Mh := by
          rw [hgain z]
          have := @List.find?_some (Fin n)
            (fun w => decide (clusterGain g res s i w = Mh)) z (c₁ :: rest) hz
          exact of_decide_eq_true this
        rw [hzval]
        have hnotMh : ¬ (0 : ℚ) < Mh := hMhpos
        simp only [hnotMh, if_false]
      · have hsnd := scanBest_snd_of_not_lt (fun p : Fin n × ℚ => p.2)
          ((c₁ :: rest).map (fun a => (a,
            pyCandDelta g res s.labels s.outCW s.inCW i a -
              pyExitDelta g res s.labels s.outCW s.inCW i)))
          gc₁ (c₁, gc₁) hc₁lt
        rw [hsnd]
        have hgc₁_le : ¬ (0 : ℚ) < gc₁ := by
          intro hcon
          refine hMhpos ?_
          calc (0 : ℚ) < gc₁ := hcon
          _ = clusterGain g res s i c₁ := hgc₁_gain
          _ ≤ Mh := by
            rw [hMh]
            exact le_listMax _ _
        simp only [hgc₁_le, if_false]

theorem pyProcessNode_eq_processNode {n : ℕ} (g : OptGraph n) (res : ℚ)
    (si : SweepState n × ℚ) (i : Fin n) :
    pyProcessNode g res si i = processNode g res si i := by
  rw [pyProcessNode_eq_refStep, processNode_eq_refStep]

theorem pySweep_eq_sweep {n : ℕ} (g : OptGraph n) (res : ℚ)
    (s : SweepState n) : pySweep g res s = sweep g res s := by
  rw [pySweep, sweep]
  have hfun : pyProcessNode g res = processNode g res := by
    funext si i
    exact pyProcessNode_eq_processNode g res si i
  rw [hfun]

theorem pyFitLoop_eq_fitLoop {n : ℕ} (g : OptGraph n) (res tol : ℚ)
    (fuel : ℕ) (s : SweepState n) :
    pyFitLoop g res tol fuel s = fitLoop g res tol fuel s := by
  induction fuel generalizing s with
  | zero => rfl
  | succ fuel ih =>
    rw [pyFitLoop, fitLoop, pySweep_eq_sweep, ih]

theorem pyFitCore_eq_fitCore {n : ℕ} (g : OptGraph n) (res tol : ℚ) :
    pyFitCore g res tol = fitCore g res tol := by
  rw [pyFitCore, fitCore, pyFitLoop_eq_fitLoop]

/-! ## Per-sweep accounting: accumulator monotone, gains traced -/

theorem processNode_acc_le {n : ℕ} (g : OptGraph n) (res : ℚ)
    (si : SweepState n × ℚ) (i : Fin n) :
    si.2 ≤ (processNode g res si i).2 := by
  obtain ⟨s, acc⟩ := si
  by_cases hex : ∃ c ∈ uniqueClusters g s.labels i, 0 < clusterGain g res s i c
  · obtain ⟨B, _, hpos, _, heq⟩ := processNode_move g res s acc i hex
    rw [heq]
    simp only []
    linarith
  · rw [processNode_stay g res s acc i (fun c hc => by
      by_contra hcon
      exact hex ⟨c, hc, lt_of_not_le hcon⟩)]

theorem foldl_processNode_acc_le {n : ℕ} (g : OptGraph n) (res : ℚ)
    (l : List (Fin n)) (si : SweepState n × ℚ) :
    si.2 ≤ (l.foldl (processNode g res) si).2 := by
  induction l generalizing si with
  | nil => exact le_refl _
  | cons i l ih =>
    rw [List.foldl_cons]
    exact le_trans (processNode_acc_le g res si i) (ih _)

/-- The spec's monotonicity: one sweep never reports a negative total
gain. -/
theorem sweep_gain_nonneg {n : ℕ} (g : OptGraph n) (res : ℚ)
    (s : SweepState n) : 0 ≤ (sweep g res s).2 :=
  foldl_processNode_acc_le g res (List.finRange n) (s, 0)

theorem fitLoop_total_eq_sum {n : ℕ} (g : OptGraph n) (res tol : ℚ)
    (fuel : ℕ) (s : SweepState n) :
    (fitLoop g res tol fuel s).total = (fitLoop g res tol fuel s).gains.sum := by
  induction fuel generalizing s with
  | zero => simp [fitLoop]
  | succ fuel ih =>
    rw [fitLoop]
    by_cases h : tol < (sweep g res s).2
    · simp only [h, if_true, List.sum_cons]
      rw [ih]
    · simp only [h, if_false, List.sum_cons, List.sum_nil, add_zero]

theorem fitLoop_gains_nonneg {n : ℕ} (g : OptGraph n) (res tol : ℚ)
    (fuel : ℕ) (s : SweepState n) :
    ∀ x ∈ (fitLoop g res tol fuel s).gains, 0 ≤ x := by
  induction fuel generalizing s with
  | zero =>
    intro x hx
    cases hx
  | succ fuel ih =>
    intro x hx
    rw [fitLoop] at hx
    by_cases h : tol < (sweep g res s).2
    · simp only [h, if_true] at hx
      rcases List.mem_cons.1 hx with he | hm
      · rw [he]
        exact sweep_gain_nonneg g res s
      · exact ih _ x hm
    · simp only [h, if_false] at hx
      rcases List.mem_cons.1 hx with he | hm
      · rw [he]
        exact sweep_gain_nonneg g res s
      · cases hm

theorem fitLoop_gains_ne_nil {n : ℕ} (g : OptGraph n) (res tol : ℚ)
    (fuel : ℕ) (s : SweepState n)
    (h : (fitLoop g res tol fuel s).converged = true) :
    (fitLoop g res tol fuel s).gains ≠ [] := by
  induction fuel generalizing s with
  | zero =>
    rw [fitLoop] at h
    cases h
  | succ fuel ih =>
    rw [fitLoop] at h ⊢
    by_cases hc : tol < (sweep g res s).2
    · simp only [hc, if_true] at h ⊢
      simp
    · simp only [hc, if_false] at h ⊢
      simp

/-- Every sweep but the last exceeded the tolerance: a new sweep is started
only after a gain above `tol`. -/
theorem fitLoop_gains_over_tol {n : ℕ} (g : OptGraph n) (res tol : ℚ)
    (fuel : ℕ) (s : SweepState n) :
    ∀ k, k + 1 < (fitLoop g res tol fuel s).gains.length →
      tol < (fitLoop g res tol fuel s).gains.getD k 0 := by
  induction fuel generalizing s with
  | zero =>
    intro k hk
    rw [fitLoop] at hk
    cases hk
  | succ fuel ih =>
    intro k hk
    rw [fitLoop] at hk ⊢
    by_cases hc : tol < (sweep g res s).2
    · simp only [hc, if_true] at hk ⊢
      cases k with
      | zero => exact hc
      | succ k =>
        rw [List.length_cons] at hk
        have hk' : k + 1 < (fitLoop g res tol fuel (sweep g res s).1).gains.length :=
          Nat.lt_of_succ_lt_succ hk
        simpa using ih (sweep g res s).1 k hk'
    · simp only [hc, if_false] at hk
      rw [List.length_singleton] at hk
      exact absurd hk (by omega)

/-- On convergence the loop stopped because the last sweep gained at most
`tol`: any gain above `tol` was followed by another sweep. -/
theorem fitLoop_converged_last_le {n : ℕ} (g : OptGraph n) (res tol : ℚ)
    (fuel : ℕ) (s : SweepState n)
    (h : (fitLoop g res tol fuel s).converged = true) :
    ∀ k, k < (fitLoop g res tol fuel s).gains.length →
      tol < (fitLoop g res tol fuel s).gains.getD k 0 →
      k + 1 < (fitLoop g res tol fuel s).gains.length := by
  induction fuel generalizing s with
  | zero =>
    rw [fitLoop] at h
    cases h
  | succ fuel ih =>
    intro k hk hgt
    rw [fitLoop] at h hk hgt ⊢
    by_cases hc : tol < (sweep g res s).2
    · simp only [hc, if_true] at h hk hgt ⊢
      cases k with
      | zero =>
        rw [List.length_cons]
        have hne := fitLoop_gains_ne_nil g res tol fuel (sweep g res s).1 h
        have hpos : 0 < (fitLoop g res tol fuel (sweep g res s).1).gains.length :=
          List.length_pos.2 hne
        omega
      | succ k =>
        rw [List.length_cons] at hk ⊢
        have hgt' : tol < (fitLoop g res tol fuel (sweep g res s).1).gains.getD k 0 := by
          simpa using hgt
        have := ih (sweep g res s).1 h k (Nat.lt_of_succ_lt_succ hk) hgt'
        omega
    · simp only [hc, if_false] at hk hgt
      rw [List.length_singleton] at hk
      have hk0 : k = 0 := by omega
      rw [hk0] at hgt
      simp only [List.getD] at hgt
      exact absurd hgt (by simpa using hc)

theorem symAdj_comm {n : ℕ} (g : OptGraph n) (i j : Fin n) :
    symAdj g i j = symAdj g j i := by
  rw [symAdj, symAdj, add_comm]

theorem initState_cwInv {n : ℕ} (g : OptGraph n) : cwInv g (initState g) := by
  refine ⟨fun c => ?_, fun c => ?_⟩
  · show g.outP c = ∑ j : Fin n, if j = c then g.outP j else 0
    rw [Finset.sum_ite_eq' Finset.univ c g.outP]
    simp
  · show g.inP c = ∑ j : Fin n, if j = c then g.inP j else 0
    rw [Finset.sum_ite_eq' Finset.univ c g.inP]
    simp

theorem moveMass_apply {n : ℕ} (w : Fin n → ℚ) (a b : Fin n) (m : ℚ)
    (hab : b ≠ a) (c : Fin n) :
    moveMass w a b m c =
      w c - (if a = c then m else 0) + (if b = c then m else 0) := by
  rw [moveMass]
  by_cases hbc : b = c
  · subst hbc
    rw [Function.update_same]
    rw [Function.update_noteq hab]
    rw [if_neg (fun h => hab h.symm), if_pos rfl]
    ring
  · rw [Function.update_noteq (fun h => hbc h.symm)]
    by_cases hac : a = c
    · subst hac
      rw [Function.update_same, if_pos rfl, if_neg hbc]
      ring
    · rw [Function.update_noteq (fun h => hac h.symm), if_neg hac, if_neg hbc]
      ring

theorem clusterOut_update {n : ℕ} (g : OptGraph n) (lab : Fin n → Fin n)
    (i B c : Fin n) :
    clusterOut g (Function.update lab i B) c =
      clusterOut g lab c - (if lab i = c then g.outP i else 0)
        + (if B = c then g.outP i else 0) := by
  rw [clusterOut, clusterOut]
  have hfun : (fun j => if Function.update lab i B j = c then g.outP j else 0)
      = Function.update (fun j => if lab j = c then g.outP j else 0) i
        (if B = c then g.outP i else 0) := by
    funext j
    by_cases hj : j = i
    · subst hj
      rw [Function.update_same, Function.update_same]
    · rw [Function.update_noteq hj, Function.update_noteq hj]
  rw [hfun]
  rw [Finset.sum_update_of_mem (Finset.mem_univ i)]
  have hsplit : ∑ j : Fin n, (if lab j = c then g.outP j else 0) =
      (∑ j ∈ Finset.univ \ {i}, (if lab j = c then g.outP j else 0)) +
      (if lab i = c then g.outP i else 0) :=
    Finset.sum_eq_sum_diff_singleton_add (Finset.mem_univ i)
      (fun j => if lab j = c then g.outP j else 0)
  rw [hsplit]
  ring

theorem clusterIn_update {n : ℕ} (g : OptGraph n) (lab : Fin n → Fin n)
    (i B c : Fin n) :
    clusterIn g (Function.update lab i B) c =
      clusterIn g lab c - (if lab i = c then g.inP i else 0)
        + (if B = c then g.inP i else 0) := by
  rw [clusterIn, clusterIn]
  have hfun : (fun j => if Function.update lab i B j = c then g.inP j else 0)
      = Function.update (fun j => if lab j = c then g.inP j else 0) i
        (if B = c then g.inP i else 0) := by
    funext j
    by_cases hj : j = i
    · subst hj
      rw [Function.update_same, Function.update_same]
    · rw [Function.update_noteq hj, Function.update_noteq hj]
  rw [hfun]
  rw [Finset.sum_update_of_mem (Finset.mem_univ i)]
  have hsplit : ∑ j : Fin n, (if lab j = c then g.inP j else 0) =
      (∑ j ∈ Finset.univ \ {i}, (if lab j = c then g.inP j else 0)) +
      (if lab i = c then g.inP i else 0) :=
    Finset.sum_eq_sum_diff_singleton_add (Finset.mem_univ i)
      (fun j => if lab j = c then g.inP j else 0)
  rw [hsplit]
  ring

theorem edgeMass_flip {n : ℕ} (g : OptGraph n) (lab : Fin n → Fin n)
    (i c : Fin n) :
    (∑ q : Fin n, if c = lab q then symAdj g i q else 0) =
      edgeMass g lab i c := by
  rw [edgeMass]
  refine Finset.sum_congr rfl ?_
  intro q _
  by_cases h : lab q = c
  · rw [if_pos h, if_pos h.symm]
  · rw [if_neg h, if_neg (fun he => h he.symm)]

theorem edgeMass_transposed {n : ℕ} (g : OptGraph n) (lab : Fin n → Fin n)
    (i c : Fin n) :
    (∑ p : Fin n, if lab p = c then symAdj g p i else 0) =
      edgeMass g lab i c := by
  rw [edgeMass]
  refine Finset.sum_congr rfl ?_
  intro p _
  rw [symAdj_comm g p i]

/-- Moving one node: change of the within-cluster edge mass. -/
theorem edge_part_update {n : ℕ} (g : OptGraph n) (lab : Fin n → Fin n)
    (i B : Fin n) (hB : B ≠ lab i) :
    (∑ p : Fin n, ∑ q : Fin n,
        if Function.update lab i B p = Function.update lab i B q
        then symAdj g p q else 0)
      - (∑ p : Fin n, ∑ q : Fin n, if lab p = lab q then symAdj g p q else 0)
    = 2 * edgeMass g lab i B
      - 2 * (edgeMass g lab i (lab i) - selfLoops g i) := by
  have hBlab : ∀ q : Fin n, q ≠ i →
      Function.update lab i B q = lab q := fun q hq =>
    Function.update_noteq hq B lab
  have hBi : Function.update lab i B i = B := Function.update_same i B lab
  -- difference of the inner sums, row by row
  have hrow : ∀ p : Fin n, p ≠ i →
      (∑ q : Fin n, if Function.update lab i B p = Function.update lab i B q
        then symAdj g p q else 0)
      - (∑ q : Fin n, if lab p = lab q then symAdj g p q else 0)
      = (if lab p = B then symAdj g p i else 0)
        - (if lab p = lab i then symAdj g p i else 0) := by
    intro p hp
    have hfun : (fun q => if Function.update lab i B p = Function.update lab i B q
        then symAdj g p q else 0) =
        Function.update (fun q => if lab p = lab q then symAdj g p q else 0) i
          (if lab p = B then symAdj g p i else 0) := by
      funext q
      by_cases hq : q = i
      · rw [hq]
        simp [Function.update_same, hBlab p hp]
      · simp [Function.update_noteq hq, hBlab p hp]
    rw [hfun, Finset.sum_update_of_mem (Finset.mem_univ i)]
    have hsplit : (∑ q : Fin n, if lab p = lab q then symAdj g p q else 0) =
        (∑ q ∈ Finset.univ \ {i}, if lab p = lab q then symAdj g p q else 0)
        + (if lab p = lab i then symAdj g p i else 0) :=
      Finset.sum_eq_sum_diff_singleton_add (Finset.mem_univ i) _
    rw [hsplit]
    ring
  -- the updated row of node i
  have hrow_i :
      (∑ q : Fin n, if Function.update lab i B i = Function.update lab i B q
        then symAdj g i q else 0)
      = selfLoops g i + edgeMass g lab i B := by
    have hfun : (fun q => if Function.update lab i B i = Function.update lab i B q
        then symAdj g i q else 0) =
        Function.update (fun q => if B = lab q then symAdj g i q else 0) i
          (symAdj g i i) := by
      funext q
      by_cases hq : q = i
      · rw [hq]
        simp [Function.update_same]
      · simp [Function.update_noteq hq, hBi]
    rw [hfun, Finset.sum_update_of_mem (Finset.mem_univ i)]
    have hsplit : (∑ q : Fin n, if B = lab q then symAdj g i q else 0) =
        (∑ q ∈ Finset.univ \ {i}, if B = lab q then symAdj g i q else 0)
        + (if B = lab i then symAdj g i i else 0) :=
      Finset.sum_eq_sum_diff_singleton_add (Finset.mem_univ i) _
    have hflip := edgeMass_flip g lab i B
    rw [hsplit, if_neg hB] at hflip
    rw [selfLoops, ← hflip]
    ring
  have hrow_i_old :
      (∑ q : Fin n, if lab i = lab q then symAdj g i q else 0)
      = edgeMass g lab i (lab i) :=
    edgeMass_flip g lab i (lab i)
  -- assemble the double sum
  have houter :
      (∑ p : Fin n, ((∑ q : Fin n,
          if Function.update lab i B p = Function.update lab i B q
          then symAdj g p q else 0)
        - (∑ q : Fin n, if lab p = lab q then symAdj g p q else 0)))
      = ((∑ q : Fin n, if Function.update lab i B i = Function.update lab i B q
          then symAdj g i q else 0)
        - (∑ q : Fin n, if lab i = lab q then symAdj g i q else 0))
      + ∑ p ∈ Finset.univ \ {i},
          ((if lab p = B then symAdj g p i else 0)
            - (if lab p = lab i then symAdj g p i else 0)) := by
    rw [Finset.sum_eq_sum_diff_singleton_add (Finset.mem_univ i)]
    rw [Finset.sum_congr rfl (fun p hp => hrow p (by
      intro he
      rw [he] at hp
      exact absurd hp (by simp)))]
    ring
  have hcol1 : (∑ p ∈ Finset.univ \ {i},
      (if lab p = B then symAdj g p i else 0)) =
      edgeMass g lab i B := by
    have hsplit : (∑ p : Fin n, if lab p = B then symAdj g p i else 0) =
        (∑ p ∈ Finset.univ \ {i}, if lab p = B then symAdj g p i else 0)
        + (if lab i = B then symAdj g i i else 0) :=
      Finset.sum_eq_sum_diff_singleton_add (Finset.mem_univ i) _
    have htr := edgeMass_transposed g lab i B
    rw [hsplit, if_neg (fun he => hB he.symm), add_zero] at htr
    exact htr
  have hcol2 : (∑ p ∈ Finset.univ \ {i},
      (if lab p = lab i then symAdj g p i else 0)) =
      edgeMass g lab i (lab i) - selfLoops g i := by
    have hsplit : (∑ p : Fin n, if lab p = lab i then symAdj g p i else 0) =
        (∑ p ∈ Finset.univ \ {i}, if lab p = lab i then symAdj g p i else 0)
        + (if lab i = lab i then symAdj g i i else 0) :=
      Finset.sum_eq_sum_diff_singleton_add (Finset.mem_univ i) _
    have htr := edgeMass_transposed g lab i (lab i)
    rw [hsplit, if_pos rfl] at htr
    rw [selfLoops, ← htr]
    ring
  have hsum_sub : (∑ p : Fin n, ∑ q : Fin n,
      if Function.update lab i B p = Function.update lab i B q
      then symAdj g p q else 0)
      - (∑ p : Fin n, ∑ q : Fin n, if lab p = lab q then symAdj g p q else 0)
      = ∑ p : Fin n, ((∑ q : Fin n,
          if Function.update lab i B p = Function.update lab i B q
          then symAdj g p q else 0)
        - (∑ q : Fin n, if lab p = lab q then symAdj g p q else 0)) := by
    rw [Finset.sum_sub_distrib]
  rw [hsum_sub, houter, hrow_i, hrow_i_old, Finset.sum_sub_distrib,
    hcol1, hcol2]
  ring

/-- Moving one node: change of the null-model term. -/
theorem null_part_update {n : ℕ} (g : OptGraph n) (lab : Fin n → Fin n)
    (i B : Fin n) (hB : B ≠ lab i) :
    (∑ c : Fin n, clusterOut g (Function.update lab i B) c *
        clusterIn g (Function.update lab i B) c)
      - (∑ c : Fin n, clusterOut g lab c * clusterIn g lab c)
    = g.outP i * (clusterIn g lab B - clusterIn g lab (lab i))
      + g.inP i * (clusterOut g lab B - clusterOut g lab (lab i))
      + 2 * g.outP i * g.inP i := by
  have hsub : (∑ c : Fin n, clusterOut g (Function.update lab i B) c *
      clusterIn g (Function.update lab i B) c)
      - (∑ c : Fin n, clusterOut g lab c * clusterIn g lab c)
      = ∑ c : Fin n, (clusterOut g (Function.update lab i B) c *
          clusterIn g (Function.update lab i B) c
        - clusterOut g lab c * clusterIn g lab c) := by
    rw [Finset.sum_sub_distrib]
  rw [hsub]
  have hpt : ∀ c : Fin n, clusterOut g (Function.update lab i B) c *
      clusterIn g (Function.update lab i B) c
      - clusterOut g lab c * clusterIn g lab c
      = (clusterOut g lab c - (if lab i = c then g.outP i else 0)
          + (if B = c then g.outP i else 0)) *
        (clusterIn g lab c - (if lab i = c then g.inP i else 0)
          + (if B = c then g.inP i else 0))
        - clusterOut g lab c * clusterIn g lab c := by
    intro c
    rw [clusterOut_update, clusterIn_update]
  rw [Finset.sum_congr rfl (fun c _ => hpt c)]
  have hvanish : ∀ c ∈ Finset.univ, c ∉ ({lab i, B} : Finset (Fin n)) →
      ((clusterOut g lab c - (if lab i = c then g.outP i else 0)
          + (if B = c then g.outP i else 0)) *
        (clusterIn g lab c - (if lab i = c then g.inP i else 0)
          + (if B = c then g.inP i else 0))
        - clusterOut g lab c * clusterIn g lab c) = 0 := by
    intro c _ hc
    rw [Finset.mem_insert, Finset.mem_singleton] at hc
    push_neg at hc
    rw [if_neg (fun h => hc.1 h.symm), if_neg (fun h => hc.2 h.symm),
      if_neg (fun h => hc.1 h.symm), if_neg (fun h => hc.2 h.symm)]
    ring
  have hrestrict : (∑ c : Fin n,
      ((clusterOut g lab c - (if lab i = c then g.outP i else 0)
          + (if B = c then g.outP i else 0)) *
        (clusterIn g lab c - (if lab i = c then g.inP i else 0)
          + (if B = c then g.inP i else 0))
        - clusterOut g lab c * clusterIn g lab c)) =
      ∑ c ∈ ({lab i, B} : Finset (Fin n)),
      ((clusterOut g lab c - (if lab i = c then g.outP i else 0)
          + (if B = c then g.outP i else 0)) *
        (clusterIn g lab c - (if lab i = c then g.inP i else 0)
          + (if B = c then g.inP i else 0))
        - clusterOut g lab c * clusterIn g lab c) :=
    (Finset.sum_subset (Finset.subset_univ _) (fun c hc hnc =>
      hvanish c hc hnc)).symm
  rw [hrestrict]
  have hpair : ({lab i, B} : Finset (Fin n)) =
      insert (lab i) ({B} : Finset (Fin n)) := rfl
  rw [hpair, Finset.sum_insert (by
    rw [Finset.mem_singleton]
    exact fun h => hB (h.symm)), Finset.sum_singleton]
  have hAA : lab i = lab i := rfl
  have hBB : B = B := rfl
  have hBiB : ¬ (lab i = B) := fun h => hB h.symm
  rw [if_pos hAA, if_pos hAA, if_neg hB, if_neg hB,
    if_neg hBiB, if_neg hBiB, if_pos hBB, if_pos hBB]
  ring

/-- Moving node `i` to cluster `B` changes the modularity potential by
exactly the code's `candidate_score(B) − exit_score`, evaluated at the true
cluster masses. -/
theorem potential_move {n : ℕ} (g : OptGraph n) (res : ℚ)
    (lab : Fin n → Fin n) (i B : Fin n) (hB : B ≠ lab i) :
    potential g res (Function.update lab i B) - potential g res lab =
      (2 * edgeMass g lab i B
        - res * g.outP i * clusterIn g lab B
        - res * g.inP i * clusterOut g lab B)
      - (2 * (edgeMass g lab i (lab i) - selfLoops g i)
        - res * g.outP i * (clusterIn g lab (lab i) - g.inP i)
        - res * g.inP i * (clusterOut g lab (lab i) - g.outP i)) := by
  rw [potential, potential]
  have hedge := edge_part_update g lab i B hB
  have hnull := null_part_update g lab i B hB
  have hexp : ∀ a b c d : ℚ, (a - res * b) - (c - res * d) =
      (a - c) - res * (b - d) := by
    intro a b c d
    ring
  rw [hexp]
  rw [hedge, hnull]
  ring

theorem uc_mem_ne {n : ℕ} {g : OptGraph n} {lab : Fin n → Fin n} {i B : Fin n}
    (hB : B ∈ uniqueClusters g lab i) : B ≠ lab i := by
  rw [uniqueClusters] at hB
  have := (List.mem_filter.1 hB).2
  exact of_decide_eq_true this

theorem uc_mem_is_label {n : ℕ} {g : OptGraph n} {lab : Fin n → Fin n}
    {i B : Fin n} (hB : B ∈ uniqueClusters g lab i) : ∃ j, lab j = B := by
  rw [uniqueClusters] at hB
  have h1 := (List.mem_filter.1 hB).1
  have h2 := List.mem_dedup.1 h1
  obtain ⟨j, _, hj⟩ := List.mem_map.1 h2
  exact ⟨j, hj⟩

theorem processNode_inv_potential {n : ℕ} (g : OptGraph n) (res : ℚ)
    (s : SweepState n) (acc : ℚ) (i : Fin n) (hinv : cwInv g s) :
    cwInv g (processNode g res (s, acc) i).1 ∧
    potential g res (processNode g res (s, acc) i).1.labels =
      potential g res s.labels + ((processNode g res (s, acc) i).2 - acc) := by
  by_cases hex : ∃ c ∈ uniqueClusters g s.labels i, 0 < clusterGain g res s i c
  · obtain ⟨B, hBuc, hpos, _, heq⟩ := processNode_move g res s acc i hex
    have hBne : B ≠ s.labels i := uc_mem_ne hBuc
    have hgain_eq : clusterGain g res s i B =
        potential g res (Function.update s.labels i B) -
          potential g res s.labels := by
      rw [potential_move g res s.labels i B hBne]
      rw [clusterGain, candScore, exitScore, hinv.1 B, hinv.2 B,
        hinv.1 (s.labels i), hinv.2 (s.labels i)]
    rw [heq]
    refine ⟨⟨fun c => ?_, fun c => ?_⟩, ?_⟩
    · show moveMass s.outCW (s.labels i) B (g.outP i) c =
        clusterOut g (Function.update s.labels i B) c
      rw [moveMass_apply _ _ _ _ hBne, clusterOut_update, hinv.1 c]
    · show moveMass s.inCW (s.labels i) B (g.inP i) c =
        clusterIn g (Function.update s.labels i B) c
      rw [moveMass_apply _ _ _ _ hBne, clusterIn_update, hinv.2 c]
    · show potential g res (Function.update s.labels i B) =
        potential g res s.labels + (acc + clusterGain g res s i B - acc)
      rw [hgain_eq]
      ring
  · rw [processNode_stay g res s acc i (fun c hc => by
      by_contra hcon
      exact hex ⟨c, hc, lt_of_not_le hcon⟩)]
    exact ⟨hinv, by ring⟩

theorem foldl_inv_potential {n : ℕ} (g : OptGraph n) (res : ℚ)
    (l : List (Fin n)) (s : SweepState n) (acc : ℚ) (hinv : cwInv g s) :
    cwInv g ((l.foldl (processNode g res) (s, acc)).1) ∧
    potential g res ((l.foldl (processNode g res) (s, acc)).1.labels) =
      potential g res s.labels +
        ((l.foldl (processNode g res) (s, acc)).2 - acc) := by
  induction l generalizing s acc with
  | nil => exact ⟨hinv, by simp⟩
  | cons i l ih =>
    rw [List.foldl_cons]
    obtain ⟨hinv', hpot'⟩ := processNode_inv_potential g res s acc i hinv
    rcases hpn : processNode g res (s, acc) i with ⟨s', acc'⟩
    rw [hpn] at hinv' hpot'
    obtain ⟨hinv'', hpot''⟩ := ih s' acc' hinv'
    refine ⟨hinv'', ?_⟩
    rw [hpot'']
    rw [show potential g res s'.labels =
      potential g res s.labels + (acc' - acc) from hpot']
    ring

theorem sweep_inv_potential {n : ℕ} (g : OptGraph n) (res : ℚ)
    (s : SweepState n) (hinv : cwInv g s) :
    cwInv g (sweep g res s).1 ∧
    potential g res (sweep g res s).1.labels =
      potential g res s.labels + (sweep g res s).2 := by
  obtain ⟨h1, h2⟩ := foldl_inv_potential g res (List.finRange n) s 0 hinv
  exact ⟨h1, by rw [sweep] at *; rw [h2]; ring⟩

theorem sweep_measure_decrease {n : ℕ} (g : OptGraph n) (res : ℚ)
    (s : SweepState n) (hinv : cwInv g s)
    (hgain : 0 < (sweep g res s).2) :
    labelingsAbove g res (sweep g res s).1.labels <
      labelingsAbove g res s.labels := by
  obtain ⟨_, hpot⟩ := sweep_inv_potential g res s hinv
  have hlt : potential g res s.labels <
      potential g res (sweep g res s).1.labels := by
    rw [hpot]
    linarith
  have hsub : Finset.univ.filter (fun l : Fin n → Fin n =>
      potential g res (sweep g res s).1.labels < potential g res l) ⊆
      Finset.univ.filter (fun l : Fin n → Fin n =>
        potential g res s.labels < potential g res l) := by
    intro x hx
    rw [Finset.mem_filter] at hx ⊢
    exact ⟨hx.1, lt_trans hlt hx.2⟩
  have hss : Finset.univ.filter (fun l : Fin n → Fin n =>
      potential g res (sweep g res s).1.labels < potential g res l) ⊂
      Finset.univ.filter (fun l : Fin n → Fin n =>
        potential g res s.labels < potential g res l) := by
    rw [Finset.ssubset_iff_of_subset hsub]
    refine ⟨(sweep g res s).1.labels, ?_, ?_⟩
    · rw [Finset.mem_filter]
      exact ⟨Finset.mem_univ _, hlt⟩
    · rw [Finset.mem_filter]
      intro hcon
      exact absurd hcon.2 (lt_irrefl _)
  exact Finset.card_lt_card hss

/-- With a non-negative tolerance, enough fuel makes the sweep loop exit
through its own condition. -/
theorem fitLoop_converged {n : ℕ} (g : OptGraph n) (res tol : ℚ)
    (htol : 0 ≤ tol) :
    ∀ fuel (s : SweepState n), cwInv g s →
      labelingsAbove g res s.labels < fuel →
      (fitLoop g res tol fuel s).converged = true := by
  intro fuel
  induction fuel with
  | zero =>
    intro s _ hf
    exact absurd hf (Nat.not_lt_zero _)
  | succ fuel ih =>
    intro s hinv hf
    rw [fitLoop]
    by_cases hc : tol < (sweep g res s).2
    · simp only [hc, if_true]
      have hgain : 0 < (sweep g res s).2 := lt_of_le_of_lt htol hc
      have hdec := sweep_measure_decrease g res s hinv hgain
      exact ih (sweep g res s).1 (sweep_inv_potential g res s hinv).1
        (by omega)
    · simp only [hc, if_false]

/-- `fit_core` always converges when `tol ≥ 0`. -/
theorem fitCore_converged {n : ℕ} (g : OptGraph n) (res tol : ℚ)
    (htol : 0 ≤ tol) : (fitCore g res tol).converged = true := by
  rw [fitCore]
  refine fitLoop_converged g res tol htol (fitFuel n) (initState g)
    (initState_cwInv g) ?_
  have h1 : labelingsAbove g res (initState g).labels ≤
      Fintype.card (Fin n → Fin n) := by
    rw [labelingsAbove]
    calc (Finset.univ.filter (fun l : Fin n → Fin n =>
        potential g res (initState g).labels < potential g res l)).card
        ≤ Finset.univ.card := Finset.card_filter_le _ _
    _ = Fintype.card (Fin n → Fin n) := rfl
  have h2 : Fintype.card (Fin n → Fin n) = n ^ n := by
    rw [Fintype.card_fun]
    simp
  rw [fitFuel]
  omega

/-! ## A vacated cluster never refills

The first move ever leaves a singleton cluster empty; a node can only move
to a cluster some neighbor currently carries, so that cluster stays empty.
Hence a positive total gain implies the final labeling misses some id,
which makes the aggregated graph strictly smaller — the multilevel driver's
termination argument. -/

theorem processNode_missing {n : ℕ} (g : OptGraph n) (res : ℚ)
    (s : SweepState n) (acc : ℚ) (i i0 : Fin n)
    (hmiss : ∀ j, s.labels j ≠ i0) :
    ∀ j, (processNode g res (s, acc) i).1.labels j ≠ i0 := by
  by_cases hex : ∃ c ∈ uniqueClusters g s.labels i, 0 < clusterGain g res s i c
  · obtain ⟨B, hBuc, _, _, heq⟩ := processNode_move g res s acc i hex
    rw [heq]
    intro j
    obtain ⟨j₀, hj₀⟩ := uc_mem_is_label hBuc
    by_cases hj : j = i
    · rw [hj]
      show Function.update s.labels i B i ≠ i0
      rw [Function.update_same]
      rw [← hj₀]
      exact hmiss j₀
    · show Function.update s.labels i B j ≠ i0
      rw [Function.update_noteq hj]
      exact hmiss j
  · rw [processNode_stay g res s acc i (fun c hc => by
      by_contra hcon
      exact hex ⟨c, hc, lt_of_not_le hcon⟩)]
    exact hmiss

theorem processNode_from_id {n : ℕ} (g : OptGraph n) (res : ℚ)
    (s : SweepState n) (acc : ℚ) (i : Fin n)
    (hid : s.labels = fun j => j) :
    ((processNode g res (s, acc) i).1.labels = (fun j => j) ∧
      (processNode g res (s, acc) i).2 = acc) ∨
    ∃ i0, ∀ j, (processNode g res (s, acc) i).1.labels j ≠ i0 := by
  by_cases hex : ∃ c ∈ uniqueClusters g s.labels i, 0 < clusterGain g res s i c
  · obtain ⟨B, hBuc, _, _, heq⟩ := processNode_move g res s acc i hex
    have hBne : B ≠ s.labels i := uc_mem_ne hBuc
    rw [heq]
    refine Or.inr ⟨i, fun j => ?_⟩
    by_cases hj : j = i
    · rw [hj]
      show Function.update s.labels i B i ≠ i
      rw [Function.update_same]
      rw [hid] at hBne
      exact hBne
    · show Function.update s.labels i B j ≠ i
      rw [Function.update_noteq hj, hid]
      exact hj
  · rw [processNode_stay g res s acc i (fun c hc => by
      by_contra hcon
      exact hex ⟨c, hc, lt_of_not_le hcon⟩)]
    exact Or.inl ⟨hid, rfl⟩

theorem foldl_missing {n : ℕ} (g : OptGraph n) (res : ℚ)
    (l : List (Fin n)) (si : SweepState n × ℚ) (i0 : Fin n)
    (hmiss : ∀ j, si.1.labels j ≠ i0) :
    ∀ j, (l.foldl (processNode g res) si).1.labels j ≠ i0 := by
  induction l generalizing si with
  | nil => exact hmiss
  | cons i l ih =>
    rw [List.foldl_cons]
    rcases hpn : processNode g res si i with ⟨s', acc'⟩
    refine ih (s', acc') ?_
    obtain ⟨s, acc⟩ := si
    have := processNode_missing g res s acc i i0 hmiss
    rw [hpn] at this
    exact this

theorem foldl_from_id {n : ℕ} (g : OptGraph n) (res : ℚ)
    (l : List (Fin n)) (s : SweepState n) (acc : ℚ)
    (hid : s.labels = fun j => j) :
    ((l.foldl (processNode g res) (s, acc)).1.labels = (fun j => j) ∧
      (l.foldl (processNode g res) (s, acc)).2 = acc) ∨
    ∃ i0, ∀ j, (l.foldl (processNode g res) (s, acc)).1.labels j ≠ i0 := by
  induction l generalizing s acc with
  | nil => exact Or.inl ⟨hid, rfl⟩
  | cons i l ih =>
    rw [List.foldl_cons]
    rcases hpn : processNode g res (s, acc) i with ⟨s', acc'⟩
    rcases processNode_from_id g res s acc i hid with ⟨hid', hacc'⟩ | ⟨i0, hmiss⟩
    · rw [hpn] at hid' hacc'
      rcases ih s' acc' hid' with ⟨hi2, ha2⟩ | h
      · refine Or.inl ⟨hi2, ?_⟩
        rw [ha2]
        exact hacc'
      · exact Or.inr h
    · rw [hpn] at hmiss
      exact Or.inr ⟨i0, foldl_missing g res l (s', acc') i0 hmiss⟩

theorem sweep_missing {n : ℕ} (g : OptGraph n) (res : ℚ)
    (s : SweepState n) (i0 : Fin n) (hmiss : ∀ j, s.labels j ≠ i0) :
    ∀ j, (sweep g res s).1.labels j ≠ i0 :=
  foldl_missing g res (List.finRange n) (s, 0) i0 hmiss

theorem fitLoop_missing {n : ℕ} (g : OptGraph n) (res tol : ℚ)
    (fuel : ℕ) (s : SweepState n) (i0 : Fin n)
    (hmiss : ∀ j, s.labels j ≠ i0) :
    ∀ j, (fitLoop g res tol fuel s).labels j ≠ i0 := by
  induction fuel generalizing s with
  | zero => exact hmiss
  | succ fuel ih =>
    rw [fitLoop]
    by_cases hc : tol < (sweep g res s).2
    · simp only [hc, if_true]
      exact ih (sweep g res s).1 (sweep_missing g res s i0 hmiss)
    · simp only [hc, if_false]
      exact sweep_missing g res s i0 hmiss

/-- A run that gains anything at all leaves some cluster id unused. -/
theorem fitLoop_total_ne_zero_missing {n : ℕ} (g : OptGraph n)
    (res tol : ℚ) (fuel : ℕ) (s : SweepState n)
    (hid : s.labels = fun j => j)
    (hne : (fitLoop g res tol fuel s).total ≠ 0) :
    ∃ i0, ∀ j, (fitLoop g res tol fuel s).labels j ≠ i0 := by
  induction fuel generalizing s with
  | zero =>
    rw [fitLoop] at hne
    exact absurd rfl hne
  | succ fuel ih =>
    rw [fitLoop] at hne ⊢
    have hfold := foldl_from_id g res (List.finRange n) s 0 hid
    rcases hfold with ⟨hid', hgain0⟩ | ⟨i0, hmiss⟩
    · have hgain0' : (sweep g res s).2 = 0 := hgain0
      have hid'' : (sweep g res s).1.labels = fun j => j := hid'
      rw [hgain0'] at hne ⊢
      by_cases hc : tol < 0
      · simp only [hc, if_true] at hne ⊢
        rw [zero_add] at hne
        exact ih (sweep g res s).1 hid'' hne
      · simp only [hc, if_false] at hne
        exact absurd rfl hne
    · have hmiss' : ∀ j, (sweep g res s).1.labels j ≠ i0 := hmiss
      by_cases hc : tol < (sweep g res s).2
      · simp only [hc, if_true] at hne ⊢
        exact ⟨i0, fitLoop_missing g res tol fuel (sweep g res s).1 i0 hmiss'⟩
      · simp only [hc, if_false] at hne ⊢
        exact ⟨i0, hmiss'⟩

/-- A positive optimizer score implies some cluster id is unused by the
final sweep labels. -/
theorem fitCore_total_ne_zero_missing {n : ℕ} (g : OptGraph n)
    (res tol : ℚ) (hne : (fitCore g res tol).total ≠ 0) :
    ∃ i0, ∀ j, (fitCore g res tol).labels j ≠ i0 := by
  rw [fitCore] at hne ⊢
  exact fitLoop_total_ne_zero_missing g res tol (fitFuel n) (initState g)
    rfl hne

theorem mem_uniqueSorted {n : ℕ} (lab : Fin n → Fin n) (i : Fin n) :
    lab i ∈ uniqueSorted lab := by
  rw [uniqueSorted, List.mem_filter]
  exact ⟨List.mem_finRange _, decide_eq_true ⟨i, rfl⟩⟩

theorem uniqueSorted_nodup {n : ℕ} (lab : Fin n → Fin n) :
    (uniqueSorted lab).Nodup :=
  (List.nodup_finRange n).filter _

/-- In a `<`-sorted list, the index of an element among those satisfying
`p` is the number of `p`-elements strictly smaller than it. -/
theorem indexOf_filter_pairwise {n : ℕ} (l : List (Fin n)) (p : Fin n → Bool)
    (x : Fin n) (hpx : p x = true) (hx : x ∈ l)
    (hsort : l.Pairwise (· < ·)) :
    (l.filter p).indexOf x =
      (l.filter (fun c => p c && decide (c < x))).length := by
  induction l with
  | nil => cases hx
  | cons a l ih =>
    have hlt := (List.pairwise_cons.1 hsort).1
    have hrest := (List.pairwise_cons.1 hsort).2
    by_cases hax : a = x
    · subst hax
      rw [List.filter_cons_of_pos hpx, List.indexOf_cons_self]
      rw [List.filter_cons_of_neg (by simp)]
      have hnil : l.filter (fun c => p c && decide (c < a)) = [] := by
        rw [List.filter_eq_nil_iff]
        intro b hb
        simp only [Bool.and_eq_true, decide_eq_true_eq, not_and]
        intro _
        exact asymm (hlt b hb)
      rw [hnil]
      rfl
    · have hxl : x ∈ l := by
        rcases List.mem_cons.1 hx with h | h
        · exact absurd h.symm hax
        · exact h
      have haltx : a < x := hlt x hxl
      by_cases hpa : p a = true
      · rw [List.filter_cons_of_pos hpa,
          List.indexOf_cons_ne (l.filter p) hax,
          List.filter_cons_of_pos (by
            rw [Bool.and_eq_true]
            exact ⟨hpa, decide_eq_true haltx⟩),
          List.length_cons, ih hxl hrest]
      · rw [List.filter_cons_of_neg (by
            intro h
            exact hpa h),
          List.filter_cons_of_neg (by
            rw [Bool.and_eq_true]
            intro h
            exact hpa h.1)]
        exact ih hxl hrest

/-- The renumbering the code actually performs: each node's new label is
the number of occurring sweep-label values strictly below its own. -/
theorem denseRenumber_count {n : ℕ} (lab : Fin n → Fin n) (i : Fin n) :
    denseRenumber lab i =
      ((List.finRange n).filter (fun c =>
        decide (∃ j, lab j = c) && decide (c < lab i))).length := by
  rw [denseRenumber, uniqueSorted]
  exact indexOf_filter_pairwise (List.finRange n) _ (lab i)
    (decide_eq_true ⟨i, rfl⟩) (List.mem_finRange _)
    (List.pairwise_lt_finRange n)

theorem denseRenumber_inj_iff {n : ℕ} (lab : Fin n → Fin n) (i j : Fin n) :
    denseRenumber lab i = denseRenumber lab j ↔ lab i = lab j := by
  rw [denseRenumber, denseRenumber]
  exact List.indexOf_inj (mem_uniqueSorted lab i) (mem_uniqueSorted lab j)

theorem denseRenumber_onto {n : ℕ} (lab : Fin n → Fin n) (m : ℕ)
    (hm : m < (uniqueSorted lab).length) :
    ∃ i, denseRenumber lab i = m := by
  have hmem : (uniqueSorted lab).get ⟨m, hm⟩ ∈ uniqueSorted lab :=
    List.get_mem _ _ hm
  have hp : decide (∃ j, lab j = (uniqueSorted lab).get ⟨m, hm⟩) = true := by
    have hmem2 : (uniqueSorted lab).get ⟨m, hm⟩ ∈
        (List.finRange n).filter (fun c => decide (∃ i, lab i = c)) := hmem
    exact (List.mem_filter.1 hmem2).2
  obtain ⟨j, hj⟩ := of_decide_eq_true hp
  refine ⟨j, ?_⟩
  rw [denseRenumber, hj]
  exact List.get_indexOf (uniqueSorted_nodup lab) ⟨m, hm⟩

theorem denseRenumber_lt {n : ℕ} (lab : Fin n → Fin n) (i : Fin n) :
    denseRenumber lab i < (uniqueSorted lab).length := by
  rw [denseRenumber]
  exact List.indexOf_lt_length.2 (mem_uniqueSorted lab i)

theorem SpMat.dot_ok {A B : SpMat} (h : A.cols = B.rows) :
    A.dot B = .ok ⟨A.rows, B.cols,
      fun i j => ∑ k ∈ Finset.range A.cols, A.ent i k * B.ent k j⟩ := by
  rw [SpMat.dot, if_pos h]

theorem getD_le_foldr_max : ∀ (l : List ℕ) (i : ℕ), i < l.length →
    l.getD i 0 ≤ l.foldr max 0 := by
  intro l
  induction l with
  | nil =>
    intro i hi
    cases hi
  | cons a l ih =>
    intro i hi
    cases i with
    | zero => exact le_max_left a (l.foldr max 0)
    | succ i =>
      have := ih i (by
        rw [List.length_cons] at hi
        omega)
      calc (a :: l).getD (i + 1) 0 = l.getD i 0 := rfl
      _ ≤ l.foldr max 0 := this
      _ ≤ max a (l.foldr max 0) := le_max_right _ _

theorem membership_row_sum (labels : List ℕ) (i : ℕ)
    (hi : i < labels.length) :
    ∑ j ∈ Finset.range (membership_matrix labels).cols,
      (membership_matrix labels).ent i j = 1 := by
  have hcong : ∀ j ∈ Finset.range ((labels.foldr max 0) + 1),
      (membership_matrix labels).ent i j =
        (if labels.getD i 0 = j then (1 : ℚ) else 0) := by
    intro j _
    show (if i < labels.length ∧ labels.getD i 0 = j then (1 : ℚ) else 0) = _
    by_cases h : labels.getD i 0 = j
    · rw [if_pos ⟨hi, h⟩, if_pos h]
    · rw [if_neg (fun hc => h hc.2), if_neg h]
  show ∑ j ∈ Finset.range ((labels.foldr max 0) + 1),
      (membership_matrix labels).ent i j = 1
  rw [Finset.sum_congr rfl hcong]
  rw [Finset.sum_ite_eq (Finset.range ((labels.foldr max 0) + 1))
    (labels.getD i 0) (fun _ => (1 : ℚ))]
  rw [if_pos (Finset.mem_range.2 (by
    have := getD_le_foldr_max labels i hi
    omega))]

theorem row_sums_collapse (n K : ℕ) (P : ℕ → ℕ → ℚ) (v : ℕ → ℚ)
    (hrowsum : ∀ k, k < n → ∑ c ∈ Finset.range K, P k c = 1) :
    (∑ c ∈ Finset.range K, ∑ k ∈ Finset.range n, P k c * v k) =
      ∑ k ∈ Finset.range n, v k := by
  rw [Finset.sum_comm]
  refine Finset.sum_congr rfl ?_
  intro k hk
  rw [← Finset.sum_mul, hrowsum k (Finset.mem_range.1 hk), one_mul]

theorem sandwich_total_eq (n K : ℕ) (M : ℕ → ℕ → ℚ) (P : ℕ → ℕ → ℚ)
    (hrowsum : ∀ k, k < n → ∑ c ∈ Finset.range K, P k c = 1) :
    (∑ c ∈ Finset.range K, ∑ d ∈ Finset.range K,
      ∑ k ∈ Finset.range n, P k c * ∑ j ∈ Finset.range n, M k j * P j d)
    = ∑ k ∈ Finset.range n, ∑ j ∈ Finset.range n, M k j := by
  have step1 : (∑ c ∈ Finset.range K, ∑ d ∈ Finset.range K,
      ∑ k ∈ Finset.range n, P k c * ∑ j ∈ Finset.range n, M k j * P j d)
      = ∑ c ∈ Finset.range K, ∑ k ∈ Finset.range n,
          P k c * ∑ d ∈ Finset.range K, ∑ j ∈ Finset.range n,
            M k j * P j d := by
    refine Finset.sum_congr rfl ?_
    intro c _
    rw [Finset.sum_comm]
    refine Finset.sum_congr rfl ?_
    intro k _
    rw [Finset.mul_sum]
  rw [step1]
  rw [row_sums_collapse n K P _ hrowsum]
  refine Finset.sum_congr rfl ?_
  intro k hk
  have step2 : (∑ d ∈ Finset.range K, ∑ j ∈ Finset.range n,
      M k j * P j d) = ∑ j ∈ Finset.range n,
        M k j * ∑ d ∈ Finset.range K, P j d := by
    rw [Finset.sum_comm]
    refine Finset.sum_congr rfl ?_
    intro j _
    rw [Finset.mul_sum]
  rw [step2]
  refine Finset.sum_congr rfl ?_
  intro j hj
  rw [hrowsum j (Finset.mem_range.1 hj), mul_one]

/-- C4: for a graph whose mass vectors sum to 1 and whose normalized
adjacency has total mass `m`, aggregating along a label vector (each node
in exactly one cluster, dimensions matching) succeeds and conserves mass:
the new out-probability vector (and the in-vector, when present) again
sums to 1 and the new adjacency's total mass is still `m`. -/
theorem c4_mass_conservation (g : AggregateGraph) (labels : List ℕ)
    (hn : labels.length = g.n_nodes)
    (hr : g.norm_adjacency.rows = g.n_nodes)
    (hc : g.norm_adjacency.cols = g.n_nodes)
    (hor : g.out_probs.rows = g.n_nodes)
    (hout : vecTotal g.out_probs = 1)
    (hinr : ∀ ip, g.in_probs = some ip → ip.rows = g.n_nodes) :
    ∃ g', g.aggregate (.vec labels) none = .ok g' ∧
      vecTotal g'.out_probs = 1 ∧
      g'.norm_adjacency.total = g.norm_adjacency.total ∧
      (∀ ip, g.in_probs = some ip → vecTotal ip = 1 →
        ∃ ip', g'.in_probs = some ip' ∧ vecTotal ip' = 1) := by
  have hrowsum : ∀ k, k < labels.length →
      ∑ c ∈ Finset.range (membership_matrix labels).cols,
        (membership_matrix labels).ent k c = 1 :=
    fun k hk => membership_row_sum labels k hk
  have hProws : (membership_matrix labels).rows = labels.length := rfl
  have h1 : g.norm_adjacency.cols = (membership_matrix labels).rows := by
    rw [hProws, hc, hn]
  have hdot1 := SpMat.dot_ok h1
  have h2 : (membership_matrix labels).transpose.cols =
      (⟨g.norm_adjacency.rows, (membership_matrix labels).cols,
        fun i j => ∑ k ∈ Finset.range g.norm_adjacency.cols,
          g.norm_adjacency.ent i k * (membership_matrix labels).ent k j⟩ :
        SpMat).rows := by
    show (membership_matrix labels).rows = g.norm_adjacency.rows
    rw [hProws, hr, hn]
  have hdot2 := SpMat.dot_ok h2
  have h3 : (membership_matrix labels).transpose.cols = g.out_probs.rows := by
    show (membership_matrix labels).rows = g.out_probs.rows
    rw [hProws, hor, hn]
  have hdot3 := SpMat.dot_ok h3
  -- the totals of the three products
  have hna_total : (⟨(membership_matrix labels).transpose.rows,
      (membership_matrix labels).cols,
      fun i j => ∑ k ∈ Finset.range (membership_matrix labels).transpose.cols,
        (membership_matrix labels).transpose.ent i k *
        (⟨g.norm_adjacency.rows, (membership_matrix labels).cols,
          fun i j => ∑ k ∈ Finset.range g.norm_adjacency.cols,
            g.norm_adjacency.ent i k *
              (membership_matrix labels).ent k j⟩ : SpMat).ent k j⟩ :
      SpMat).total = g.norm_adjacency.total := by
    show (∑ c ∈ Finset.range (membership_matrix labels).cols,
        ∑ d ∈ Finset.range (membership_matrix labels).cols,
        ∑ k ∈ Finset.range (membership_matrix labels).rows,
          (membership_matrix labels).ent k c *
          ∑ j ∈ Finset.range g.norm_adjacency.cols,
            g.norm_adjacency.ent k j * (membership_matrix labels).ent j d)
      = g.norm_adjacency.total
    rw [hProws]
    have hcols_eq : g.norm_adjacency.cols = labels.length := by
      rw [hc, hn]
    rw [hcols_eq]
    rw [sandwich_total_eq labels.length (membership_matrix labels).cols
      g.norm_adjacency.ent (membership_matrix labels).ent hrowsum]
    rw [SpMat.total, hr, hc, hn]
  have hop_total : vecTotal (⟨(membership_matrix labels).transpose.rows,
      g.out_probs.cols,
      fun i j => ∑ k ∈ Finset.range (membership_matrix labels).transpose.cols,
        (membership_matrix labels).transpose.ent i k *
          g.out_probs.ent k j⟩ : SpMat) = 1 := by
    show (∑ c ∈ Finset.range (membership_matrix labels).cols,
        ∑ k ∈ Finset.range (membership_matrix labels).rows,
          (membership_matrix labels).ent k c * g.out_probs.ent k 0) = 1
    rw [hProws]
    rw [row_sums_collapse labels.length (membership_matrix labels).cols
      (membership_matrix labels).ent (fun k => g.out_probs.ent k 0) hrowsum]
    rw [← hout, vecTotal, hor, hn]
  cases hip : g.in_probs with
  | none =>
    simp only [AggregateGraph.aggregate, MembershipArg.toMat, hip, hdot1,
      hdot2, hdot3, bind, Except.bind]
    refine ⟨_, rfl, hop_total, hna_total, ?_⟩
    intro ip hip2 _
    cases hip2
  | some ip =>
    have hipr : ip.rows = g.n_nodes := hinr ip hip
    have h4 : (membership_matrix labels).transpose.cols = ip.rows := by
      show (membership_matrix labels).rows = ip.rows
      rw [hProws, hipr, hn]
    have hdot4 := SpMat.dot_ok h4
    have hip_total : ∀ hiptot : vecTotal ip = 1,
        vecTotal (⟨(membership_matrix labels).transpose.rows, ip.cols,
          fun i j => ∑ k ∈ Finset.range
            (membership_matrix labels).transpose.cols,
            (membership_matrix labels).transpose.ent i k *
              ip.ent k j⟩ : SpMat) = 1 := by
      intro hiptot
      show (∑ c ∈ Finset.range (membership_matrix labels).cols,
          ∑ k ∈ Finset.range (membership_matrix labels).rows,
            (membership_matrix labels).ent k c * ip.ent k 0) = 1
      rw [hProws]
      rw [row_sums_collapse labels.length (membership_matrix labels).cols
        (membership_matrix labels).ent (fun k => ip.ent k 0) hrowsum]
      rw [← hiptot, vecTotal, hipr, hn]
    simp only [AggregateGraph.aggregate, MembershipArg.toMat, hip, hdot1,
      hdot2, hdot3, hdot4, bind, Except.bind]
    refine ⟨_, rfl, hop_total, hna_total, ?_⟩
    intro ip2 hip2 hiptot
    cases hip2
    exact ⟨_, rfl, hip_total hiptot⟩

theorem SpMat.total_scale (q : ℚ) (A : SpMat) :
    (SpMat.scale q A).total = q * A.total := by
  show (∑ i ∈ Finset.range A.rows, ∑ j ∈ Finset.range A.cols, q * A.ent i j)
    = q * ∑ i ∈ Finset.range A.rows, ∑ j ∈ Finset.range A.cols, A.ent i j
  rw [Finset.mul_sum]
  refine Finset.sum_congr rfl ?_
  intro i _
  rw [Finset.mul_sum]

/-- C10: the construction normalizes by dividing the adjacency by the raw
sum of its stored weights with no guard; for every adjacency of strictly
positive total mass the resulting normalized adjacency sums to 1 (an
adjacency of zero total mass would divide by zero, outside the
operation's domain). -/
theorem c10_unguarded_normalization (adjacency : SpMat) (ow : WeightSpec)
    (iw : Option WeightSpec) (hpos : 0 < adjacency.total) :
    (AggregateGraph.init adjacency ow iw).norm_adjacency.total = 1 := by
  show (SpMat.scale (1 / adjacency.total) adjacency).total = 1
  rw [SpMat.total_scale, one_div, inv_mul_cancel₀ (ne_of_gt hpos)]

/-- C9 (amended): `aggregate` validates nothing itself; the only failure
is the generic dimension-mismatch error of the first sparse product, which
occurs before any part of the new state is produced. -/
theorem c9_amended_no_validation (g : AggregateGraph) (m : SpMat)
    (hm : g.norm_adjacency.cols ≠ m.rows) :
    g.aggregate (.mat m) none = .error "dimension mismatch" := by
  simp only [AggregateGraph.aggregate, MembershipArg.toMat]
  rw [SpMat.dot, if_neg hm]
  simp only [bind, Except.bind]

/-- C8 (amended): the optimizer constructor performs no validation of
`resolution` or `tol` — every value, including `resolution ≤ 0` and
`tol < 0`, is stored as given; the only configuration failure is
`UnsupportedEngine` from engine selection. -/
theorem c8_amended_unvalidated_config (res tol : ℚ) (na : Bool)
    (e : Engine) :
    (∃ gm, GreedyModularity.init res tol na e = .ok gm ∧
      gm.resolution = res ∧ gm.tol = tol) ↔ (e = .numba → na = true) := by
  cases e <;> cases na <;>
    simp [GreedyModularity.init, check_engine]

theorem length_filter_lt {α : Type} (p : α → Bool) (l : List α) (x : α)
    (hx : x ∈ l) (hpx : p x = false) :
    (l.filter p).length < l.length := by
  induction l with
  | nil => cases hx
  | cons a l ih =>
    rcases List.mem_cons.1 hx with h | h
    · have hpa : p a = false := by
        rw [← h]
        exact hpx
      rw [List.filter_cons_of_neg (by
        rw [hpa]
        exact Bool.false_ne_true)]
      rw [List.length_cons]
      calc (l.filter p).length ≤ l.length := List.length_filter_le p l
      _ < l.length + 1 := Nat.lt_succ_self _
    · by_cases hpa : p a = true
      · rw [List.filter_cons_of_pos hpa, List.length_cons, List.length_cons]
        exact Nat.succ_lt_succ (ih h)
      · rw [List.filter_cons_of_neg hpa, List.length_cons]
        calc (l.filter p).length < l.length := ih h
        _ < l.length + 1 := Nat.lt_succ_self _

/-- An unused cluster id shrinks the aggregated graph strictly. -/
theorem numClusters_lt {n : ℕ} (lab : Fin n → Fin n) (i0 : Fin n)
    (hmiss : ∀ j, lab j ≠ i0) : numClusters lab < n := by
  rw [numClusters, uniqueSorted]
  have h := length_filter_lt (fun c => decide (∃ i, lab i = c))
    (List.finRange n) i0 (List.mem_finRange i0)
    (decide_eq_false (fun he => by
      obtain ⟨j, hj⟩ := he
      exact hmiss j hj))
  rw [List.length_finRange] at h
  exact h

/-- With non-negative tolerances the driver loop reaches a stop condition
within `k + 1` iterations: every productive iteration strictly shrinks the
aggregated graph. -/
theorem driverLoop_isSome (res tol agg_tol : ℚ) (cap : ℤ)
    (htol : 0 ≤ tol) (hagg : 0 ≤ agg_tol) :
    ∀ fuel st, st.g.k < fuel →
      (driverLoop res tol agg_tol cap fuel st).isSome = true := by
  intro fuel
  induction fuel with
  | zero =>
    intro st h
    exact absurd h (Nat.not_lt_zero _)
  | succ fuel ih =>
    intro st hst
    simp only [driverLoop]
    have hconv : (fitCore st.g.toOpt res tol).converged = true :=
      fitCore_converged st.g.toOpt res tol htol
    rw [if_pos hconv]
    by_cases htot : (fitCore st.g.toOpt res tol).total ≤ agg_tol
    · rw [if_pos htot]
      rfl
    · rw [if_neg htot]
      have hne : (fitCore st.g.toOpt res tol).total ≠ 0 := by
        intro h0
        refine htot ?_
        rw [h0]
        exact hagg
      obtain ⟨i0, hmiss⟩ :=
        fitCore_total_ne_zero_missing st.g.toOpt res tol hne
      have hlt : numClusters (fitCore st.g.toOpt res tol).labels < st.g.k :=
        numClusters_lt _ i0 hmiss
      by_cases h1 : (aggregateD st.g (fitCore st.g.toOpt res tol).labels).k = 1
      · rw [if_pos h1]
        rfl
      · rw [if_neg h1]
        by_cases hcap : ((st.iter : ℤ) + 1 : ℤ) = cap
        · rw [if_pos hcap]
          rfl
        · rw [if_neg hcap]
          refine ih _ ?_
          show (aggregateD st.g (fitCore st.g.toOpt res tol).labels).k < fuel
          have hk : (aggregateD st.g (fitCore st.g.toOpt res tol).labels).k =
              numClusters (fitCore st.g.toOpt res tol).labels := rfl
          omega

/-- The loop stops only at one of the three stop conditions, each
certified by its stop reason; a negative cap never fires. -/
theorem driverLoop_evidence (res tol agg_tol : ℚ) (cap : ℤ) :
    ∀ fuel st fin reason score,
      driverLoop res tol agg_tol cap fuel st = some (fin, reason, score) →
      (reason = .scoreLow → score ≤ agg_tol) ∧
      (reason = .singleNode → fin.g.k = 1) ∧
      (reason = .capReached → (fin.iter : ℤ) = cap) ∧
      (cap < 0 → reason ≠ .capReached) := by
  intro fuel
  induction fuel with
  | zero =>
    intro st fin reason score h
    cases h
  | succ fuel ih =>
    intro st fin reason score h
    simp only [driverLoop] at h
    by_cases hconv : (fitCore st.g.toOpt res tol).converged = true
    · rw [if_pos hconv] at h
      by_cases htot : (fitCore st.g.toOpt res tol).total ≤ agg_tol
      · rw [if_pos htot] at h
        simp only [Option.some.injEq, Prod.mk.injEq] at h
        obtain ⟨hf, hre, hsc⟩ := h
        cases hre
        cases hsc
        cases hf
        refine ⟨fun _ => htot, fun hr => ?_, fun hr => ?_, fun _ hr => ?_⟩
        · exact nomatch hr
        · exact nomatch hr
        · exact nomatch hr
      · rw [if_neg htot] at h
        by_cases h1 : (aggregateD st.g (fitCore st.g.toOpt res tol).labels).k = 1
        · rw [if_pos h1] at h
          simp only [Option.some.injEq, Prod.mk.injEq] at h
          obtain ⟨hf, hre, hsc⟩ := h
          cases hre
          cases hsc
          cases hf
          refine ⟨fun hr => ?_, fun _ => h1, fun hr => ?_, fun _ hr => ?_⟩
          · exact nomatch hr
          · exact nomatch hr
          · exact nomatch hr
        · rw [if_neg h1] at h
          by_cases hcap : ((st.iter : ℤ) + 1 : ℤ) = cap
          · rw [if_pos hcap] at h
            simp only [Option.some.injEq, Prod.mk.injEq] at h
            obtain ⟨hf, hre, hsc⟩ := h
            cases hre
            cases hsc
            cases hf
            refine ⟨fun hr => ?_, fun hr => ?_, fun _ => ?_, fun hneg _ => ?_⟩
            · exact nomatch hr
            · exact nomatch hr
            · show ((st.iter + 1 : ℕ) : ℤ) = cap
              omega
            · omega
          · rw [if_neg hcap] at h
            exact ih _ fin reason score h
    · rw [if_neg hconv] at h
      cases h

/-- The running membership keeps one entry per original node. -/
theorem driverLoop_membership_length (res tol agg_tol : ℚ) (cap : ℤ) :
    ∀ fuel st fin reason score,
      driverLoop res tol agg_tol cap fuel st = some (fin, reason, score) →
      fin.membership.length = st.membership.length := by
  intro fuel
  induction fuel with
  | zero =>
    intro st fin reason score h
    cases h
  | succ fuel ih =>
    intro st fin reason score h
    simp only [driverLoop] at h
    by_cases hconv : (fitCore st.g.toOpt res tol).converged = true
    · rw [if_pos hconv] at h
      by_cases htot : (fitCore st.g.toOpt res tol).total ≤ agg_tol
      · rw [if_pos htot] at h
        simp only [Option.some.injEq, Prod.mk.injEq] at h
        obtain ⟨hf, _, _⟩ := h
        cases hf
        rfl
      · rw [if_neg htot] at h
        by_cases h1 : (aggregateD st.g (fitCore st.g.toOpt res tol).labels).k = 1
        · rw [if_pos h1] at h
          simp only [Option.some.injEq, Prod.mk.injEq] at h
          obtain ⟨hf, _, _⟩ := h
          cases hf
          exact List.length_map _ _
        · rw [if_neg h1] at h
          by_cases hcap : ((st.iter : ℤ) + 1 : ℤ) = cap
          · rw [if_pos hcap] at h
            simp only [Option.some.injEq, Prod.mk.injEq] at h
            obtain ⟨hf, _, _⟩ := h
            cases hf
            exact List.length_map _ _
          · rw [if_neg hcap] at h
            have hlen := ih _ fin reason score h
            rw [hlen]
            exact List.length_map _ _
    · rw [if_neg hconv] at h
      cases h

theorem reindex_clusters_length (l : List ℕ) :
    (reindex_clusters l).length = l.length :=
  List.length_map _ _

/-- On a single node there is no neighbor cluster to move to. -/
theorem uniqueClusters_one (s : SweepState 1) (i : Fin 1) :
    uniqueClusters loopGraph s.labels i = [] := by
  rw [uniqueClusters]
  refine List.filter_eq_nil_iff.2 ?_
  intro c _
  have hc : c = s.labels i := Subsingleton.elim _ _
  simp [hc]

/-- With `tol < 0` the sweep loop of `fit_core` never satisfies its exit
condition on the one-node graph: every sweep gains exactly `0 > tol`. -/
theorem loopGraph_diverges : fitLoopDiverges loopGraph 1 (-1) := by
  have hpn : ∀ (s : SweepState 1 × ℚ) (i : Fin 1),
      processNode loopGraph 1 s i = s := by
    intro s i
    simp only [processNode, uniqueClusters_one, List.isEmpty_nil]
    rfl
  have hsw : ∀ s : SweepState 1, sweep loopGraph 1 s = (s, 0) := by
    intro s
    rw [sweep]
    have hfold : ∀ l : List (Fin 1),
        l.foldl (processNode loopGraph 1) (s, 0) = (s, 0) := by
      intro l
      induction l with
      | nil => rfl
      | cons a l ih =>
        rw [List.foldl_cons, hpn (s, 0) a]
        exact ih
    exact hfold _
  intro fuel
  induction fuel with
  | zero => rfl
  | succ fuel ih =>
    simp only [fitLoop, hsw]
    have h2 : (-1 : ℚ) < ((initState loopGraph, (0 : ℚ)).2) := by
      show (-1 : ℚ) < 0
      norm_num
    rw [if_pos h2]
    exact ih

/-- The multilevel driver inherits the divergence: its very first call to
the optimizer never returns. -/
theorem loopD_diverges :
    driverLoopDiverges 1 (-1) 0 (-1) ⟨loopD, [0], 0⟩ := by
  intro fuel
  cases fuel with
  | zero => rfl
  | succ fuel =>
    simp only [driverLoop]
    have hconv : (fitCore (DState.g ⟨loopD, [0], 0⟩).toOpt 1 (-1)).converged
        = false := loopGraph_diverges (fitFuel 1)
    rw [if_neg (by
      rw [hconv]
      exact Bool.false_ne_true)]

/-! ## Claims about the local optimizer -/

/-- C1: at each swept node `i` with current cluster `A = labels i`, the
optimizer computes `exit_score` and `candidate_score(B)` over the
symmetrized proxy adjacency `½(A+Aᵀ)` exactly as the spec's formulas
(`exitScore`/`candScore` over `edgeMass`), moves `i` to a cluster `B`
maximizing `candidate_score(B) − exit_score` if and only if that maximum
gain is strictly positive, and the move immediately rewrites the label of
`i` and both cluster-mass accumulators. -/
theorem c1_move_scores {n : ℕ} (g : OptGraph n) (res : ℚ)
    (s : SweepState n) (acc : ℚ) (i : Fin n) :
    ((∀ B ∈ uniqueClusters g s.labels i,
        candScore g res s i B - exitScore g res s i ≤ 0) →
      processNode g res (s, acc) i = (s, acc)) ∧
    ((∃ B ∈ uniqueClusters g s.labels i,
        0 < candScore g res s i B - exitScore g res s i) →
      ∃ B ∈ uniqueClusters g s.labels i,
        0 < candScore g res s i B - exitScore g res s i ∧
        (∀ C ∈ uniqueClusters g s.labels i,
          candScore g res s i C - exitScore g res s i ≤
            candScore g res s i B - exitScore g res s i) ∧
        processNode g res (s, acc) i =
          (⟨Function.update s.labels i B,
            moveMass s.outCW (s.labels i) B (g.outP i),
            moveMass s.inCW (s.labels i) B (g.inP i)⟩,
            acc + (candScore g res s i B - exitScore g res s i))) := by
  constructor
  · intro h
    exact processNode_stay g res s acc i h
  · intro hex
    obtain ⟨B, hBuc, hpos, hmax, heq⟩ := processNode_move g res s acc i hex
    exact ⟨B, hBuc, hpos, hmax, heq⟩

/-- C2: with a non-negative tolerance the sweep loop converges; every
sweep's total gain is non-negative, the reported score is the sum of all
sweep gains, and a new sweep is started exactly when the previous sweep's
gain strictly exceeds `tol`. -/
theorem c2_sweep_accounting {n : ℕ} (g : OptGraph n) (res tol : ℚ)
    (htol : 0 ≤ tol) :
    (fitCore g res tol).converged = true ∧
    (∀ x ∈ (fitCore g res tol).gains, 0 ≤ x) ∧
    (fitCore g res tol).total = (fitCore g res tol).gains.sum ∧
    (∀ k, k + 1 < (fitCore g res tol).gains.length →
      tol < (fitCore g res tol).gains.getD k 0) ∧
    (∀ k, k < (fitCore g res tol).gains.length →
      tol < (fitCore g res tol).gains.getD k 0 →
      k + 1 < (fitCore g res tol).gains.length) := by
  have hconv := fitCore_converged g res tol htol
  refine ⟨hconv, ?_, ?_, ?_, ?_⟩
  · exact fitLoop_gains_nonneg g res tol (fitFuel n) (initState g)
  · exact fitLoop_total_eq_sum g res tol (fitFuel n) (initState g)
  · exact fitLoop_gains_over_tol g res tol (fitFuel n) (initState g)
  · exact fitLoop_converged_last_le g res tol (fitFuel n) (initState g) hconv

/-- C5: the interpreted ('python') engine and the compiled ('numba')
engine produce identical results on every graph and configuration: same
dense labels and same score. -/
theorem c5_engine_equivalence {n : ℕ} (g : OptGraph n) (res tol : ℚ) :
    (fun i => denseRenumber (pyFitCore g res tol).labels i) =
      (fun i => denseRenumber (fitCore g res tol).labels i) ∧
    (pyFitCore g res tol).total = (fitCore g res tol).total := by
  rw [pyFitCore_eq_fitCore]
  exact ⟨rfl, rfl⟩

/-- C6 (amended): the reported labels are the sweep labels renumbered
densely in ascending order of the original cluster id — node `i` receives
the number of occurring sweep-label values strictly below its own; equal
final labels correspond exactly to equal sweep labels, and the final
labels are contiguous integers starting at 0. -/
theorem c6_amended_dense_renumber {n : ℕ} (g : OptGraph n) (res tol : ℚ) :
    (∀ i, denseRenumber (fitCore g res tol).labels i =
      ((List.finRange n).filter (fun c =>
        decide (∃ j, (fitCore g res tol).labels j = c) &&
        decide (c < (fitCore g res tol).labels i))).length) ∧
    (∀ i j, denseRenumber (fitCore g res tol).labels i =
        denseRenumber (fitCore g res tol).labels j ↔
      (fitCore g res tol).labels i = (fitCore g res tol).labels j) ∧
    (∀ m, m < (uniqueSorted (fitCore g res tol).labels).length →
      ∃ i, denseRenumber (fitCore g res tol).labels i = m) :=
  ⟨fun i => denseRenumber_count _ i,
   fun i j => denseRenumber_inj_iff _ i j,
   fun m hm => denseRenumber_onto _ m hm⟩

/-- C3 (amended): with a non-negative optimizer tolerance in addition to
the non-negative aggregation tolerance, the multilevel loop terminates
within `k + 1` levels on any `k`-node graph, and it stops only through the
three stop conditions — optimizer score at or below the aggregation
tolerance, aggregated graph collapsed to a single node, or iteration count
reaching the cap — where a negative cap never fires. -/
theorem c3_amended_driver_termination (d : DGraph) (m0 : List ℕ)
    (res tol agg_tol : ℚ) (cap : ℤ) (htol : 0 ≤ tol) (hagg : 0 ≤ agg_tol) :
    ∃ fin reason score,
      driverLoop res tol agg_tol cap (d.k + 1) ⟨d, m0, 0⟩ =
        some (fin, reason, score) ∧
      (reason = .scoreLow → score ≤ agg_tol) ∧
      (reason = .singleNode → fin.g.k = 1) ∧
      (reason = .capReached → (fin.iter : ℤ) = cap) ∧
      (cap < 0 → reason ≠ .capReached) := by
  have hsome := driverLoop_isSome res tol agg_tol cap htol hagg (d.k + 1)
    ⟨d, m0, 0⟩ (Nat.lt_succ_self _)
  obtain ⟨out, hout⟩ := Option.isSome_iff_exists.1 hsome
  obtain ⟨fin, reason, score⟩ := out
  obtain ⟨h1, h2, h3, h4⟩ := driverLoop_evidence res tol agg_tol cap
    (d.k + 1) ⟨d, m0, 0⟩ fin reason score hout
  exact ⟨fin, reason, score, hout, h1, h2, h3, h4⟩

/-- C7: `Louvain.fit` labels every node exactly once: the primary label
vector has length `n1` (the row count), and in the bipartite case the
secondary label vector has length `n2` (the column count). -/
theorem c7_label_lengths (B : SpMat) (fb : Bool) (res tol agg_tol : ℚ)
    (cap : ℤ) (htol : 0 ≤ tol) (hagg : 0 ≤ agg_tol) :
    ∃ l1 l2opt, louvainFit B fb res tol agg_tol cap = some (l1, l2opt) ∧
      l1.length = B.rows ∧
      (∀ l2, l2opt = some l2 → l2.length = B.cols) ∧
      ((B.rows ≠ B.cols ∨ fb = true) → 0 < B.cols → l2opt ≠ none) := by
  by_cases hbip : B.rows ≠ B.cols ∨ fb = true
  · have hk : (bipD B).k = B.rows + B.cols := rfl
    obtain ⟨out, hout⟩ := Option.isSome_iff_exists.1
      (driverLoop_isSome res tol agg_tol cap htol hagg ((bipD B).k + 1)
        ⟨bipD B, List.range (bipD B).k, 0⟩ (Nat.lt_succ_self _))
    obtain ⟨fin, reason, score⟩ := out
    have hlen : fin.membership.length = B.rows + B.cols := by
      have h1 := driverLoop_membership_length res tol agg_tol cap
        ((bipD B).k + 1) ⟨bipD B, List.range (bipD B).k, 0⟩
        fin reason score hout
      rw [h1]
      show (List.range (bipD B).k).length = B.rows + B.cols
      rw [List.length_range, hk]
    have hrl : (reindex_clusters fin.membership).length = B.rows + B.cols := by
      rw [reindex_clusters_length, hlen]
    simp only [louvainFit]
    rw [if_pos hbip, hout, Option.map_some']
    show ∃ l1 l2opt,
      some (postLabels B.rows (bipD B).k fin.membership) = some (l1, l2opt) ∧
      l1.length = B.rows ∧
      (∀ l2, l2opt = some l2 → l2.length = B.cols) ∧
      ((B.rows ≠ B.cols ∨ fb = true) → 0 < B.cols → l2opt ≠ none)
    simp only [postLabels]
    by_cases hc : 0 < B.cols
    · have hlt : B.rows < (bipD B).k := by
        rw [hk]
        omega
      rw [if_pos hlt]
      refine ⟨_, _, rfl, ?_, ?_, ?_⟩
      · rw [List.length_take, hrl]
        omega
      · intro l2 h2
        have h3 := Option.some.inj h2
        rw [← h3, List.length_drop, hrl]
        omega
      · intro _ _ h
        exact Option.noConfusion h
    · have hc0 : B.cols = 0 := by omega
      have hnlt : ¬ B.rows < (bipD B).k := by
        rw [hk]
        omega
      rw [if_neg hnlt]
      refine ⟨_, _, rfl, ?_, ?_, ?_⟩
      · rw [hrl, hc0]
        omega
      · intro l2 h2
        exact Option.noConfusion h2
      · intro _ hpos
        omega
  · have hk : (squareD B).k = B.rows := rfl
    obtain ⟨out, hout⟩ := Option.isSome_iff_exists.1
      (driverLoop_isSome res tol agg_tol cap htol hagg ((squareD B).k + 1)
        ⟨squareD B, List.range (squareD B).k, 0⟩ (Nat.lt_succ_self _))
    obtain ⟨fin, reason, score⟩ := out
    have hlen : fin.membership.length = B.rows := by
      have h1 := driverLoop_membership_length res tol agg_tol cap
        ((squareD B).k + 1) ⟨squareD B, List.range (squareD B).k, 0⟩
        fin reason score hout
      rw [h1]
      show (List.range (squareD B).k).length = B.rows
      rw [List.length_range, hk]
    simp only [louvainFit]
    rw [if_neg hbip, hout, Option.map_some']
    show ∃ l1 l2opt,
      some (postLabels B.rows (squareD B).k fin.membership) = some (l1, l2opt) ∧
      l1.length = B.rows ∧
      (∀ l2, l2opt = some l2 → l2.length = B.cols) ∧
      ((B.rows ≠ B.cols ∨ fb = true) → 0 < B.cols → l2opt ≠ none)
    simp only [postLabels]
    have hnlt : ¬ B.rows < (squareD B).k := by
      rw [hk]
      omega
    rw [if_neg hnlt]
    refine ⟨_, _, rfl, ?_, ?_, ?_⟩
    · rw [reindex_clusters_length, hlen]
    · intro l2 h2
      exact Option.noConfusion h2
    · intro hb _
      exact absurd hb hbip

attribute [local semireducible] Rat.add Rat.mul Rat.sub Rat.inv

/-- C6 (counterexample): on `crossGraph` the sweep labels are
`[3, 2, 2, 3]`; the code's `np.unique` renumbering gives node 0 the id 1,
while first-occurrence renumbering would give it 0. -/
theorem c6_counterexample_not_first_occurrence :
    denseRenumber (fitCore crossGraph 1 (1/1000)).labels 0 = 1 ∧
    firstOccurrenceRenumber (fitCore crossGraph 1 (1/1000)).labels 0 = 0 ∧
    denseRenumber (fitCore crossGraph 1 (1/1000)).labels 0 ≠
      firstOccurrenceRenumber (fitCore crossGraph 1 (1/1000)).labels 0 := by
  refine ⟨?_, ?_, ?_⟩ <;> decide

/-- C1 (witness): on `pairGraph`, swept node 0 has the single candidate
cluster 1 with strictly positive gain, and the move is performed. -/
theorem c1_witness :
    (∃ B ∈ uniqueClusters pairGraph (initState pairGraph).labels 0,
      0 < candScore pairGraph 1 (initState pairGraph) 0 B -
        exitScore pairGraph 1 (initState pairGraph) 0) ∧
    (∃ B ∈ uniqueClusters pairGraph (initState pairGraph).labels 0,
      0 < candScore pairGraph 1 (initState pairGraph) 0 B -
        exitScore pairGraph 1 (initState pairGraph) 0 ∧
      (∀ C ∈ uniqueClusters pairGraph (initState pairGraph).labels 0,
        candScore pairGraph 1 (initState pairGraph) 0 C -
          exitScore pairGraph 1 (initState pairGraph) 0 ≤
        candScore pairGraph 1 (initState pairGraph) 0 B -
          exitScore pairGraph 1 (initState pairGraph) 0) ∧
      processNode pairGraph 1 (initState pairGraph, 0) 0 =
        (⟨Function.update (initState pairGraph).labels 0 B,
          moveMass (initState pairGraph).outCW
            ((initState pairGraph).labels 0) B (pairGraph.outP 0),
          moveMass (initState pairGraph).inCW
            ((initState pairGraph).labels 0) B (pairGraph.inP 0)⟩,
          0 + (candScore pairGraph 1 (initState pairGraph) 0 B -
            exitScore pairGraph 1 (initState pairGraph) 0))) :=
  ⟨by decide, (c1_move_scores pairGraph 1 (initState pairGraph) 0 0).2
    (by decide)⟩

/-- C9 (counterexample): aggregating with a membership matrix that leaves
node 1 unassigned raises no error at all — it is silently accepted, and
the aggregated out-mass no longer sums to 1. -/
theorem c9_counterexample_unassigned_accepted :
    ∃ g', AggregateGraph.aggregate pairAgg (.mat unassignedMembership) none
      = .ok g' ∧ vecTotal g'.out_probs ≠ 1 :=
  ⟨_, rfl, by decide⟩

/-- C9 (amended, witness): a membership matrix with the wrong number of
rows makes the first sparse product fail with the generic
dimension-mismatch error. -/
theorem c9_amended_witness :
    pairAgg.norm_adjacency.cols ≠ mismatchMembership.rows ∧
    AggregateGraph.aggregate pairAgg (.mat mismatchMembership) none =
      .error "dimension mismatch" :=
  ⟨by decide, c9_amended_no_validation pairAgg mismatchMembership
    (by decide)⟩

/-- C8 (counterexample): constructing the optimizer with
`resolution = -1` and `tol = -1` succeeds and stores the values — no
`InvalidResolution` or `InvalidTolerance` failure exists in the code. -/
theorem c8_counterexample_no_validation :
    GreedyModularity.init (-1) (-1) true .python =
      .ok ⟨-1, -1, .python⟩ := rfl

/-- C10 (witness): a one-entry adjacency of positive mass normalizes to
total mass 1. -/
theorem c10_witness :
    0 < SpMat.total oneMat ∧
    (AggregateGraph.init oneMat .degree none).norm_adjacency.total = 1 :=
  ⟨by decide, c10_unguarded_normalization oneMat .degree none (by decide)⟩

/-- C4 (witness): merging both nodes of `pairAgg` into one cluster
conserves the unit out-mass and the adjacency's total mass. -/
theorem c4_witness :
    vecTotal pairAgg.out_probs = 1 ∧
    (∃ g', AggregateGraph.aggregate pairAgg (.vec [0, 0]) none = .ok g' ∧
      vecTotal g'.out_probs = 1 ∧
      g'.norm_adjacency.total = pairAgg.norm_adjacency.total ∧
      (∀ ip, pairAgg.in_probs = some ip → vecTotal ip = 1 →
        ∃ ip', g'.in_probs = some ip' ∧ vecTotal ip' = 1)) :=
  ⟨by decide, c4_mass_conservation pairAgg [0, 0] rfl rfl rfl rfl
    (by decide) (fun ip h => nomatch h)⟩

/-- C2 (witness): the accounting holds on `pairGraph` at the default-like
tolerance 1/1000. -/
theorem c2_witness :
    (0 : ℚ) ≤ 1/1000 ∧
    ((fitCore pairGraph 1 (1/1000)).converged = true ∧
    (∀ x ∈ (fitCore pairGraph 1 (1/1000)).gains, 0 ≤ x) ∧
    (fitCore pairGraph 1 (1/1000)).total =
      (fitCore pairGraph 1 (1/1000)).gains.sum ∧
    (∀ k, k + 1 < (fitCore pairGraph 1 (1/1000)).gains.length →
      (1/1000 : ℚ) < (fitCore pairGraph 1 (1/1000)).gains.getD k 0) ∧
    (∀ k, k < (fitCore pairGraph 1 (1/1000)).gains.length →
      (1/1000 : ℚ) < (fitCore pairGraph 1 (1/1000)).gains.getD k 0 →
      k + 1 < (fitCore pairGraph 1 (1/1000)).gains.length)) :=
  ⟨by norm_num, c2_sweep_accounting pairGraph 1 (1/1000) (by norm_num)⟩

/-- C3 (counterexample): the claim quantifies only over configurations
with non-negative *aggregation* tolerance, but the optimizer tolerance is
unconstrained; with `tol = -1` (stored unvalidated, cf. C8) the inner
sweep loop never exits on a one-node self-loop graph, so `Louvain.fit`
diverges even though `agg_tol = 0 ≥ 0`. -/
theorem c3_counterexample_negative_tol :
    fitLoopDiverges loopGraph 1 (-1) ∧
    driverLoopDiverges 1 (-1) 0 (-1) ⟨loopD, [0], 0⟩ :=
  ⟨loopGraph_diverges, loopD_diverges⟩

/-- C3 (amended, witness): on the two-node pair graph with `tol = 0`,
`agg_tol = 0` and unlimited cap, the driver stops with a certified stop
reason. -/
theorem c3_witness :
    (0 : ℚ) ≤ 0 ∧
    ∃ fin reason score,
      driverLoop 1 0 0 (-1) (pairD.k + 1) ⟨pairD, [0, 1], 0⟩ =
        some (fin, reason, score) ∧
      (reason = .scoreLow → score ≤ 0) ∧
      (reason = .singleNode → fin.g.k = 1) ∧
      (reason = .capReached → (fin.iter : ℤ) = -1) ∧
      ((-1 : ℤ) < 0 → reason ≠ .capReached) :=
  ⟨le_refl 0,
   c3_amended_driver_termination pairD [0, 1] 1 0 0 (-1) (le_refl 0)
     (le_refl 0)⟩

/-- C7 (witness): a 2×1 all-ones biadjacency with `force_biadjacency`
yields a primary label vector of length 2 and a secondary label vector of
length 1. -/
theorem c7_witness :
    (0 : ℚ) ≤ 0 ∧
    ∃ l1 l2opt, louvainFit wideMat true 1 0 0 (-1) = some (l1, l2opt) ∧
      l1.length = wideMat.rows ∧
      (∀ l2, l2opt = some l2 → l2.length = wideMat.cols) ∧
      ((wideMat.rows ≠ wideMat.cols ∨ true = true) → 0 < wideMat.cols →
        l2opt ≠ none) :=
  ⟨le_refl 0, c7_label_lengths wideMat true 1 0 0 (-1) (le_refl 0)
    (le_refl 0)⟩

end Louvain
